import Mathlib

/-!
Shallow embedding of the positional sequence core of `src/seq.rs`
(a GenBank-format molecular sequence library).

Machine integers `i64` are modelled as `Int` (the source never relies on
wrap-around of 64-bit arithmetic; all coordinates are small).  Rust
`Result<T, PositionError>` becomes `Except PositionError T`, `Option`
becomes `Option`.  The `Before`/`After` newtype wrappers around `bool`
are flattened to `Bool`.

Rust's generic `Position::transform(pos, val)` applies the node closure
`pos` before descent at every node and then recurses into the *result*
of `pos`; such a higher-order traversal is not structurally terminating
for an arbitrary closure, so it is specialised here at each of its
call sites (`mapValE` for the identity node closure, `revTrans` for the
reverse-complement closure, `wrapAll` for the origin-wrap closure and
`simplifyImpl` for `simplify_shallow`), with the recursion into rewritten
nodes unrolled exactly as the source performs it.
-/

set_option maxRecDepth 2000

namespace GB

/-- Linear or circular topology of a molecule (`Topology` in seq.rs). -/
inductive Topology where
  | Linear : Topology
  | Circular : Topology
deriving DecidableEq, Repr

/-- Genbank position expression (`Position` in seq.rs).  `Span` carries its
fuzzy-endpoint flags as plain `Bool` (Rust wraps them in `Before`/`After`). -/
inductive Position where
  | Single : Int → Position
  | Between : Int → Int → Position
  | Span : Int × Bool → Int × Bool → Position
  | Complement : Position → Position
  | Join : List Position → Position
  | Order : List Position → Position
  | Bond : List Position → Position
  | OneOf : List Position → Position
  | External : String → Option Position → Position
  | Gap : Option Int → Position

/-- Error taxonomy of seq.rs (`PositionError`). -/
inductive PositionError where
  | Ambiguous : Position → PositionError
  | ExternalErr : Position → PositionError
  | Recursion : Position → PositionError
  | Empty : PositionError
  | OutOfBounds : Position → PositionError

/-- `Position::simple_span`: a span with both fuzzy flags clear. -/
def Position.simple_span (a b : Int) : Position :=
  Position.Span (a, false) (b, false)

mutual

/-- Structural size of a position tree; every leaf counts 1, independently of
the coordinate values (used as a termination measure). -/
def psize : Position → Nat
  | .Single _ => 1
  | .Between _ _ => 1
  | .Span _ _ => 1
  | .Complement c => 1 + psize c
  | .Join cs => 1 + plsize cs
  | .Order cs => 1 + plsize cs
  | .Bond cs => 1 + plsize cs
  | .OneOf cs => 1 + plsize cs
  | .External _ none => 1
  | .External _ (some c) => 1 + psize c
  | .Gap _ => 1

/-- Sum of `psize` over a list. -/
def plsize : List Position → Nat
  | [] => 0
  | p :: ps => psize p + plsize ps

end

theorem psize_pos (p : Position) : 0 < psize p := by
  cases p <;> first
    | simp [psize]
    | (rename_i o; cases o <;> simp [psize])

theorem plsize_append (l₁ l₂ : List Position) :
    plsize (l₁ ++ l₂) = plsize l₁ + plsize l₂ := by
  induction l₁ with
  | nil => simp [plsize]
  | cons p ps ih =>
    simp only [List.cons_append, plsize, List.append_eq]; rw [ih]; omega

theorem psize_le_plsize_of_mem {x : Position} {l : List Position} (h : x ∈ l) :
    psize x ≤ plsize l := by
  induction l with
  | nil => cases h
  | cons p ps ih =>
    rcases List.mem_cons.mp h with h' | h'
    · subst h'; simp only [plsize]; omega
    · have := ih h'; simp only [plsize]; omega

theorem two_psize_lt_join {x : Position} {l : List Position} (h : x ∈ l) :
    2 * psize x < 2 * psize (Position.Join l) := by
  have h1 := psize_le_plsize_of_mem h
  simp only [psize]; omega

mutual

/-- `Position::find_bounds`: outermost inclusive extent of a position.
`Join` takes the lo of its first child and the hi of its last child in
document order; `Order`/`Bond`/`OneOf` take the min/max over the children
whose bounds succeed (failures are skipped, matching the Rust
`flat_map(Position::find_bounds)`); `External` and `Gap` are ambiguous. -/
def Position.find_bounds : Position → Except PositionError (Int × Int)
  | .Span (a, _) (b, _) => .ok (a, b)
  | .Complement c => c.find_bounds
  | .Join ps =>
    match ps with
    | [] => .error .Empty
    | first :: rest =>
      match first.find_bounds with
      | .error e => .error e
      | .ok (s, _) =>
        match ((first :: rest).getLast (List.cons_ne_nil first rest)).find_bounds with
        | .error e => .error e
        | .ok (_, e2) => .ok (s, e2)
  | .Single p => .ok (p, p)
  | .Between a b => .ok (a, b)
  | .Order ps =>
    match bounds_ok_list ps with
    | [] => .error .Empty
    | x :: xs => .ok (xs.foldl (fun acc p => (min acc.1 p.1, max acc.2 p.2)) x)
  | .Bond ps =>
    match bounds_ok_list ps with
    | [] => .error .Empty
    | x :: xs => .ok (xs.foldl (fun acc p => (min acc.1 p.1, max acc.2 p.2)) x)
  | .OneOf ps =>
    match bounds_ok_list ps with
    | [] => .error .Empty
    | x :: xs => .ok (xs.foldl (fun acc p => (min acc.1 p.1, max acc.2 p.2)) x)
  | .External n c => .error (.Ambiguous (.External n c))
  | .Gap l => .error (.Ambiguous (.Gap l))
termination_by p => 2 * psize p
decreasing_by
  all_goals try { simp only [psize, plsize]; omega }
  all_goals
    { apply two_psize_lt_join
      exact List.getLast_mem _ }

/-- Bounds of the children whose `find_bounds` succeeds, in order (the Rust
iterator `flat_map(Position::find_bounds)`, which silently skips `Err`). -/
def bounds_ok_list : List Position → List (Int × Int)
  | [] => []
  | p :: ps =>
    match p.find_bounds with
    | .ok ab => ab :: bounds_ok_list ps
    | .error _ => bounds_ok_list ps
termination_by l => 2 * plsize l + 1
decreasing_by
  all_goals simp only [psize, plsize]
  all_goals try omega
  all_goals { have := psize_pos p; omega }

end

mutual

/-- `Position::to_gb_format`: canonical GenBank text of a position, converting
the 0-based coordinates to 1-based. -/
def Position.to_gb_format : Position → String
  | .Single p => toString (p + 1)
  | .Between a b => toString (a + 1) ++ "^" ++ toString (b + 1)
  | .Span (a, bf) (b, af) =>
    (if bf then "<" else "") ++ toString (a + 1) ++ ".." ++
      (if af then ">" else "") ++ toString (b + 1)
  | .Complement p => "complement(" ++ p.to_gb_format ++ ")"
  | .Join ps => "join(" ++ position_list ps ++ ")"
  | .Order ps => "order(" ++ position_list ps ++ ")"
  | .Bond ps => "bond(" ++ position_list ps ++ ")"
  | .OneOf ps => "one-of(" ++ position_list ps ++ ")"
  | .External n (some p) => n ++ ":" ++ p.to_gb_format
  | .External n none => n
  | .Gap (some l) => "gap(" ++ toString l ++ ")"
  | .Gap none => "gap()"
termination_by p => 2 * psize p
decreasing_by
  all_goals simp only [psize, plsize]
  all_goals omega

/-- Children formatted and joined with commas (the Rust `position_list`). -/
def position_list : List Position → String
  | [] => ""
  | [p] => p.to_gb_format
  | p :: q :: rest => p.to_gb_format ++ "," ++ position_list (q :: rest)
termination_by l => 2 * plsize l + 1
decreasing_by
  all_goals simp only [psize, plsize]
  all_goals try omega
  all_goals { have := psize_pos p; omega }

end

/-- `flatten_join`: recursively replace any `Join` child by its children. -/
def flatten_join : List Position → List Position
  | [] => []
  | .Join xs :: rest => flatten_join xs ++ flatten_join rest
  | p :: rest => p :: flatten_join rest
termination_by l => plsize l
decreasing_by
  all_goals simp only [psize, plsize]
  all_goals try omega
  all_goals { have := psize_pos p; omega }

/-- `merge_adjacent`: scanning left to right, coalesce two consecutive
elements when they are contiguous and the facing endpoints are not fuzzy.
The Rust original folds into a vector and mutates its last element; here the
current last element is carried as the head of the remaining work list, which
performs the identical sequence of comparisons. -/
def merge_adjacent : List Position → List Position
  | [] => []
  | [p] => [p]
  | p :: q :: rest =>
    match p, q with
    | .Single a, .Single b =>
      if a + 1 = b then merge_adjacent (Position.simple_span a b :: rest)
      else if a ≠ b then .Single a :: merge_adjacent (.Single b :: rest)
      else merge_adjacent (.Single a :: rest)
    | .Single a, .Span (c, false) d =>
      if a + 1 = c then merge_adjacent (.Span (a, false) d :: rest)
      else .Single a :: merge_adjacent (.Span (c, false) d :: rest)
    | .Span a (b, false), .Single d =>
      if b + 1 = d then merge_adjacent (.Span a (d, false) :: rest)
      else .Span a (b, false) :: merge_adjacent (.Single d :: rest)
    | .Span a (b, false), .Span (c, false) d =>
      if b + 1 = c then merge_adjacent (.Span a d :: rest)
      else .Span a (b, false) :: merge_adjacent (.Span (c, false) d :: rest)
    | p, q => p :: merge_adjacent (q :: rest)
termination_by l => l.length
decreasing_by all_goals simp [List.length]

theorem plsize_flatten_le (l : List Position) :
    plsize (flatten_join l) ≤ plsize l := by
  induction l using flatten_join.induct with
  | case1 => simp [flatten_join]
  | case2 xs rest ih1 ih2 =>
    rw [flatten_join, plsize_append]
    simp only [plsize, psize]
    omega
  | case3 p rest hp ih =>
    rw [flatten_join]
    · simp only [plsize]; omega
    · exact hp

theorem plsize_merge_le (l : List Position) :
    plsize (merge_adjacent l) ≤ plsize l := by
  induction l using merge_adjacent.induct <;>
    simp_all [merge_adjacent, plsize, psize, Position.simple_span]
  all_goals omega

/-- The degenerate-span rule of `simplify_shallow` on its own: a span with
both fuzzy flags clear and equal endpoints becomes a `Single`; everything
else is unchanged. -/
def collapse_span : Position → Position
  | .Span (a, false) (b, false) =>
    if a = b then .Single a else .Span (a, false) (b, false)
  | p => p

/-- `simplify_shallow`: one simplification step at the current node.  An
empty `Join` is the `Empty` error (the Rust `assert!(!xs.is_empty())` after
merging, which cannot fire for a non-empty input, is modelled by the second
`Empty` arm); a degenerate fuzzy-free span becomes a `Single`.  A `Join`
collapsing to one element is re-simplified in Rust by a recursive call on
that element; the element comes out of `merge_adjacent (flatten_join xs)`
and is therefore never itself a `Join` (see `merge_adjacent_no_join` and
`simplify_shallow_nonjoin` below), so the recursive call is exactly
`collapse_span`. -/
def simplify_shallow : Position → Except PositionError Position
  | .Join xs =>
    if xs.isEmpty then .error .Empty
    else
      match merge_adjacent (flatten_join xs) with
      | [] => .error .Empty
      | [x] => .ok (collapse_span x)
      | x :: y :: rest => .ok (.Join (x :: y :: rest))
  | .Span (a, false) (b, false) =>
    if a = b then .ok (.Single a) else .ok (.Span (a, false) (b, false))
  | p => .ok p

/-- `flatten_join` never leaves a `Join` at the top level of its result. -/
theorem flatten_join_no_join {l : List Position} {p : Position}
    (h : p ∈ flatten_join l) : ∀ ys, p ≠ .Join ys := by
  induction l using flatten_join.induct with
  | case1 => rw [flatten_join] at h; cases h
  | case2 xs rest ih1 ih2 =>
    rw [flatten_join] at h
    rcases List.mem_append.mp h with h' | h'
    · exact ih1 h'
    · exact ih2 h'
  | case3 q rest hq ih =>
    rw [flatten_join] at h
    · rcases List.mem_cons.mp h with h' | h'
      · subst h'; intro ys hys; exact hq ys hys
      · exact ih h'
    · exact hq

/-- `merge_adjacent` maps a `Join`-free list to a `Join`-free list. -/
theorem merge_adjacent_no_join :
    ∀ l : List Position, (∀ q ∈ l, ∀ ys, q ≠ .Join ys) →
      ∀ p ∈ merge_adjacent l, ∀ ys, p ≠ .Join ys := by
  intro l
  induction l using merge_adjacent.induct with
  | case1 => intro hl p hp; simp [merge_adjacent] at hp
  | case2 q =>
    intro hl p hp
    simp [merge_adjacent] at hp
    subst hp; exact hl _ (by simp)
  | case3 rest a ih =>
    intro hl p hp
    simp [merge_adjacent] at hp
    refine ih ?_ p hp
    intro q' hq'
    rcases List.mem_cons.mp hq' with rfl | h'
    · simp [Position.simple_span]
    · exact hl q' (by simp [h'])
  | case4 rest a b h1 h2 ih =>
    intro hl p hp
    simp [merge_adjacent, h1, h2] at hp
    rcases hp with rfl | hp
    · simp
    · refine ih ?_ p hp
      intro q' hq'
      rcases List.mem_cons.mp hq' with rfl | h'
      · simp
      · exact hl q' (by simp [h'])
  | case5 rest a b h1 h2 ih =>
    intro hl p hp
    simp [merge_adjacent, h1, h2] at hp
    refine ih ?_ p hp
    intro q' hq'
    rcases List.mem_cons.mp hq' with rfl | h'
    · simp
    · exact hl q' (by simp [h'])
  | case6 rest a d ih =>
    intro hl p hp
    simp [merge_adjacent] at hp
    refine ih ?_ p hp
    intro q' hq'
    rcases List.mem_cons.mp hq' with rfl | h'
    · simp
    · exact hl q' (by simp [h'])
  | case7 rest a c d h1 ih =>
    intro hl p hp
    simp [merge_adjacent, h1] at hp
    rcases hp with rfl | hp
    · simp
    · refine ih ?_ p hp
      intro q' hq'
      rcases List.mem_cons.mp hq' with rfl | h'
      · simp
      · exact hl q' (by simp [h'])
  | case8 rest a b ih =>
    intro hl p hp
    simp [merge_adjacent] at hp
    refine ih ?_ p hp
    intro q' hq'
    rcases List.mem_cons.mp hq' with rfl | h'
    · simp
    · exact hl q' (by simp [h'])
  | case9 rest a b d h1 ih =>
    intro hl p hp
    simp [merge_adjacent, h1] at hp
    rcases hp with rfl | hp
    · simp
    · refine ih ?_ p hp
      intro q' hq'
      rcases List.mem_cons.mp hq' with rfl | h'
      · simp
      · exact hl q' (by simp [h'])
  | case10 rest a b d ih =>
    intro hl p hp
    simp [merge_adjacent] at hp
    refine ih ?_ p hp
    intro q' hq'
    rcases List.mem_cons.mp hq' with rfl | h'
    · simp
    · exact hl q' (by simp [h'])
  | case11 rest a b c d h1 ih =>
    intro hl p hp
    simp [merge_adjacent, h1] at hp
    rcases hp with rfl | hp
    · simp
    · refine ih ?_ p hp
      intro q' hq'
      rcases List.mem_cons.mp hq' with rfl | h'
      · simp
      · exact hl q' (by simp [h'])
  | case12 rest p q hf1 hf2 hf3 hf4 ih =>
    intro hl r hr
    have heq : merge_adjacent (p :: q :: rest) = p :: merge_adjacent (q :: rest) := by
      rcases p with v|⟨a,b⟩|⟨⟨a1,f1⟩,⟨a2,f2⟩⟩|c|cs|cs|cs|cs|⟨n,c⟩|lg <;>
        rcases q with w|⟨a3,b3⟩|⟨⟨a4,f4⟩,⟨a5,f5⟩⟩|c3|cs3|cs3|cs3|cs3|⟨n3,c3⟩|lg3 <;>
        (try cases f2) <;> (try cases f4) <;>
        first
          | exact (hf1 _ _ rfl rfl).elim
          | exact (hf2 _ _ _ rfl rfl).elim
          | exact (hf3 _ _ _ rfl rfl).elim
          | exact (hf4 _ _ _ _ rfl rfl).elim
          | simp [merge_adjacent]
    rw [heq] at hr
    rcases List.mem_cons.mp hr with rfl | hr
    · exact hl _ (by simp)
    · refine ih ?_ r hr
      intro q' hq'
      rcases List.mem_cons.mp hq' with rfl | h'
      · exact hl q' (by simp)
      · exact hl q' (by simp [h'])

/-- On an argument that is not a `Join`, `simplify_shallow` is exactly
`collapse_span` (this is the shape of the Rust recursive call inside the
`Join` arm, recorded here as the faithfulness argument for the
`collapse_span` specialisation above). -/
theorem simplify_shallow_nonjoin {p : Position} (h : ∀ ys, p ≠ .Join ys) :
    simplify_shallow p = .ok (collapse_span p) := by
  cases p with
  | Join ys => exact absurd rfl (h ys)
  | Span ab cd =>
    rcases ab with ⟨a, bf⟩; rcases cd with ⟨b, af⟩
    cases bf <;> cases af <;>
      simp [simplify_shallow, collapse_span] <;>
      split <;> simp_all
  | _ => simp [simplify_shallow, collapse_span]

theorem psize_simplify_shallow {p q : Position}
    (h : simplify_shallow p = .ok q) : psize q ≤ psize p := by
  cases p with
  | Join xs =>
    rw [simplify_shallow] at h
    by_cases hne : xs.isEmpty
    · rw [if_pos hne] at h; cases h
    · rw [if_neg hne] at h
      have h1 := plsize_merge_le (flatten_join xs)
      have h2 := plsize_flatten_le xs
      rcases hm : merge_adjacent (flatten_join xs) with _ | ⟨x, _ | ⟨y, rest⟩⟩ <;>
          rw [hm] at h h1
      · cases h
      · cases h
        have h3 : psize (collapse_span x) ≤ psize x := by
          cases x with
          | Span ab cd =>
            rcases ab with ⟨a, bf⟩; rcases cd with ⟨b, af⟩
            cases bf <;> cases af <;> simp [collapse_span] <;>
              split <;> simp [psize]
          | _ => simp [collapse_span]
        simp only [plsize, psize] at *
        omega
      · cases h
        simp only [plsize, psize] at *
        omega
  | Span ab cd =>
    rcases ab with ⟨a, bf⟩; rcases cd with ⟨b, af⟩
    cases bf <;> cases af
    · rw [simplify_shallow] at h
      split at h <;> cases h <;> simp [psize]
    · rw [simplify_shallow] at h
      · cases h; exact le_refl _
      · simp
      · simp
    · rw [simplify_shallow] at h
      · cases h; exact le_refl _
      · simp
      · simp
    · rw [simplify_shallow] at h
      · cases h; exact le_refl _
      · simp
      · simp
  | _ =>
    rw [simplify_shallow] at h
    · cases h; exact le_refl _
    · simp
    · simp

mutual

/-- Descent phase of `simplify`: Rust `transform_impl` with the node closure
`simplify_shallow` and the identity value closure.  At every child the node
closure is applied first and the traversal recurses into its result. -/
def simplifyImpl : Position → Except PositionError Position
  | .Complement c =>
    match h : simplify_shallow c with
    | .error e => .error e
    | .ok c1 =>
      match simplifyImpl c1 with
      | .error e => .error e
      | .ok c2 => .ok (.Complement c2)
  | .Join cs =>
    match simplifyList cs with
    | .error e => .error e
    | .ok l => .ok (.Join l)
  | .Order cs =>
    match simplifyList cs with
    | .error e => .error e
    | .ok l => .ok (.Order l)
  | .Bond cs =>
    match simplifyList cs with
    | .error e => .error e
    | .ok l => .ok (.Bond l)
  | .OneOf cs =>
    match simplifyList cs with
    | .error e => .error e
    | .ok l => .ok (.OneOf l)
  | .Single v => .ok (.Single v)
  | .Between a b => .ok (.Between a b)
  | .Span ab cd => .ok (.Span ab cd)
  | .External n c => .ok (.External n c)
  | .Gap l => .ok (.Gap l)
termination_by p => 2 * psize p
decreasing_by
  all_goals try { simp only [psize, plsize]; omega }
  all_goals
    { have h1 := psize_simplify_shallow h
      simp only [psize, plsize]
      omega }

/-- Child list traversal of `simplify` (`t_vec` in the Rust `transform_impl`). -/
def simplifyList : List Position → Except PositionError (List Position)
  | [] => .ok []
  | p :: ps =>
    match h : simplify_shallow p with
    | .error e => .error e
    | .ok p1 =>
      match simplifyImpl p1 with
      | .error e => .error e
      | .ok p2 =>
        match simplifyList ps with
        | .error e => .error e
        | .ok l => .ok (p2 :: l)
termination_by l => 2 * plsize l + 1
decreasing_by
  all_goals try { have := psize_pos p; simp only [psize, plsize]; omega }
  all_goals
    { have h1 := psize_simplify_shallow h
      have h2 := psize_pos p
      simp only [psize, plsize]
      omega }

end

/-- `simplify`: apply `simplify_shallow` at every node via `transform` (the
node closure is applied before descent, starting at the root). -/
def simplify (p : Position) : Except PositionError Position :=
  match simplify_shallow p with
  | .error e => .error e
  | .ok q => simplifyImpl q

/-- The `simplify_shallow(..).unwrap()` calls inside `Position::truncate`:
at those call sites the argument is never an empty `Join`, so the `Err` case
(a Rust panic) is unreachable; it is given the untouched argument as a
default to keep the function total. -/
def simplify_shallow_unwrap (p : Position) : Position :=
  match simplify_shallow p with
  | .ok q => q
  | .error _ => p

mutual

/-- `Position::truncate`: restrict a position to the half-open window
`[start, e)`; `none` when nothing remains. -/
def Position.truncate : Position → Int → Int → Option Position
  | .Single a, start, e =>
    if start ≤ a ∧ a < e then some (.Single a) else none
  | .Between a b, start, e =>
    if (start ≤ a ∧ a < e) ∨ (start ≤ b ∧ b < e) then some (.Between a b)
    else none
  | .Span (a, bf) (b, af), start, e =>
    if start ≤ a ∧ a < e then
      if start ≤ b ∧ b < e then
        some (simplify_shallow_unwrap (.Span (a, bf) (b, af)))
      else some (simplify_shallow_unwrap (.Span (a, bf) (e - 1, false)))
    else
      if start ≤ b ∧ b < e then
        some (simplify_shallow_unwrap (.Span (start, false) (b, af)))
      else
        if a ≤ start ∧ e - 1 ≤ b then
          some (simplify_shallow_unwrap (Position.simple_span start (e - 1)))
        else none
  | .Complement c, start, e => (c.truncate start e).map .Complement
  | .Join ps, start, e =>
    (truncate_list ps start e).map (fun v => simplify_shallow_unwrap (.Join v))
  | .OneOf ps, start, e => (truncate_list ps start e).map .OneOf
  | .Bond ps, start, e => (truncate_list ps start e).map .Bond
  | .Order ps, start, e => (truncate_list ps start e).map .Order
  | .External n c, _, _ => some (.External n c)
  | .Gap l, _, _ => some (.Gap l)
termination_by p => 3 * psize p
decreasing_by all_goals { simp only [psize, plsize]; omega }

/-- The `filter` closure of `Position::truncate`: `none` when no child
survives truncation. -/
def truncate_list (l : List Position) (start e : Int) : Option (List Position) :=
  match truncate_filter l start e with
  | [] => none
  | r => some r
termination_by 3 * plsize l + 2
decreasing_by omega

/-- `filter_map` over the children (survivors of truncation, in order). -/
def truncate_filter : List Position → Int → Int → List Position
  | [], _, _ => []
  | p :: ps, start, e =>
    match p.truncate start e with
    | some q => q :: truncate_filter ps start e
    | none => truncate_filter ps start e
termination_by l => 3 * plsize l + 1
decreasing_by
  all_goals simp only [psize, plsize]
  all_goals try omega
  all_goals { have := psize_pos p; omega }

end

mutual

/-- `Position::transform` specialised to an identity node closure and a pure
value closure: rewrite every leaf coordinate with `f`.  This is the
`transform(&|p| Ok(p), &|v| Ok(f(v))).unwrap()` pattern of
`relocate_position` (circular branch); such a call can never fail. -/
def mapVal (f : Int → Int) : Position → Position
  | .Single v => .Single (f v)
  | .Between a b => .Between (f a) (f b)
  | .Span (a, bf) (b, af) => .Span (f a, bf) (f b, af)
  | .Complement c => .Complement (mapVal f c)
  | .Join cs => .Join (mapValList f cs)
  | .Order cs => .Order (mapValList f cs)
  | .Bond cs => .Bond (mapValList f cs)
  | .OneOf cs => .OneOf (mapValList f cs)
  | .External n c => .External n c
  | .Gap l => .Gap l

/-- Child-list traversal of `mapVal`. -/
def mapValList (f : Int → Int) : List Position → List Position
  | [] => []
  | p :: ps => mapVal f p :: mapValList f ps

end

mutual

/-- `Position::transform` specialised to an identity node closure and a
fallible value closure (used by `unwrap_position` and the linear branch of
`relocate_position`).  Evaluation order of the leaf coordinates matches the
Rust source (left to right, first error wins). -/
def mapValE (val : Int → Except PositionError Int) :
    Position → Except PositionError Position
  | .Single v =>
    match val v with
    | .error e => .error e
    | .ok w => .ok (.Single w)
  | .Between a b =>
    match val a with
    | .error e => .error e
    | .ok a1 =>
      match val b with
      | .error e => .error e
      | .ok b1 => .ok (.Between a1 b1)
  | .Span (a, bf) (b, af) =>
    match val a with
    | .error e => .error e
    | .ok a1 =>
      match val b with
      | .error e => .error e
      | .ok b1 => .ok (.Span (a1, bf) (b1, af))
  | .Complement c =>
    match mapValE val c with
    | .error e => .error e
    | .ok c1 => .ok (.Complement c1)
  | .Join cs =>
    match mapValEList val cs with
    | .error e => .error e
    | .ok l => .ok (.Join l)
  | .Order cs =>
    match mapValEList val cs with
    | .error e => .error e
    | .ok l => .ok (.Order l)
  | .Bond cs =>
    match mapValEList val cs with
    | .error e => .error e
    | .ok l => .ok (.Bond l)
  | .OneOf cs =>
    match mapValEList val cs with
    | .error e => .error e
    | .ok l => .ok (.OneOf l)
  | .External n c => .ok (.External n c)
  | .Gap l => .ok (.Gap l)

/-- Child-list traversal of `mapValE`. -/
def mapValEList (val : Int → Except PositionError Int) :
    List Position → Except PositionError (List Position)
  | [] => .ok []
  | p :: ps =>
    match mapValE val p with
    | .error e => .error e
    | .ok q =>
      match mapValEList val ps with
      | .error e => .error e
      | .ok l => .ok (q :: l)

end

/-- A convenient simultaneous induction principle for `Position` and lists of
positions (obtained from the functional induction principle of `mapVal`). -/
theorem position_induction (P : Position → Prop) (Q : List Position → Prop)
    (h1 : ∀ v, P (.Single v)) (h2 : ∀ a b, P (.Between a b))
    (h3 : ∀ a bf b af, P (.Span (a, bf) (b, af)))
    (h4 : ∀ c, P c → P (.Complement c))
    (h5 : ∀ cs, Q cs → P (.Join cs)) (h6 : ∀ cs, Q cs → P (.Order cs))
    (h7 : ∀ cs, Q cs → P (.Bond cs)) (h8 : ∀ cs, Q cs → P (.OneOf cs))
    (h9 : ∀ n c, P (.External n c)) (h10 : ∀ l, P (.Gap l))
    (hnil : Q []) (hcons : ∀ p ps, P p → Q ps → Q (p :: ps)) :
    ∀ p, P p :=
  mapVal.induct id P Q h1 h2 h3 h4 h5 h6 h7 h8 h9 h10 hnil hcons

/-- List form of `position_induction`. -/
theorem position_list_induction (P : Position → Prop) (Q : List Position → Prop)
    (h1 : ∀ v, P (.Single v)) (h2 : ∀ a b, P (.Between a b))
    (h3 : ∀ a bf b af, P (.Span (a, bf) (b, af)))
    (h4 : ∀ c, P c → P (.Complement c))
    (h5 : ∀ cs, Q cs → P (.Join cs)) (h6 : ∀ cs, Q cs → P (.Order cs))
    (h7 : ∀ cs, Q cs → P (.Bond cs)) (h8 : ∀ cs, Q cs → P (.OneOf cs))
    (h9 : ∀ n c, P (.External n c)) (h10 : ∀ l, P (.Gap l))
    (hnil : Q []) (hcons : ∀ p ps, P p → Q ps → Q (p :: ps)) :
    ∀ l, Q l := by
  intro l
  induction l with
  | nil => exact hnil
  | cons p ps ih =>
    exact hcons p ps
      (position_induction P Q h1 h2 h3 h4 h5 h6 h7 h8 h9 h10 hnil hcons p) ih

theorem mapValE_ok (f : Int → Int) (p : Position) :
    mapValE (fun v => .ok (f v)) p = .ok (mapVal f p) := by
  induction p using position_induction
    (Q := fun l => mapValEList (fun v => .ok (f v)) l = .ok (mapValList f l))
    with
  | h1 v => rw [mapValE, mapVal]
  | h2 a b => rw [mapValE, mapVal]
  | h3 a bf b af => rw [mapValE, mapVal]
  | h4 c ih => rw [mapValE, mapVal, ih]
  | h5 cs ih => rw [mapValE, mapVal, ih]
  | h6 cs ih => rw [mapValE, mapVal, ih]
  | h7 cs ih => rw [mapValE, mapVal, ih]
  | h8 cs ih => rw [mapValE, mapVal, ih]
  | h9 n c => rw [mapValE, mapVal]
  | h10 l => rw [mapValE, mapVal]
  | hnil => rw [mapValEList, mapValList]
  | hcons q qs ihq ihqs => rw [mapValEList, mapValList, ihq, ihqs]

mutual

/-- `Position::transform` specialised to the node closure of
`revcomp_position` (reverse child lists, swap span and between endpoints
together with their fuzzy flags) and the value closure `v ↦ len - 1 - v`.
The Rust closure reverses each child list in place before the traversal
descends; reversal commutes with the elementwise rewrite, so the reversal is
applied to the rewritten list here. -/
def revTrans (len : Int) : Position → Position
  | .Single v => .Single (len - 1 - v)
  | .Between a b => .Between (len - 1 - b) (len - 1 - a)
  | .Span (a, bf) (b, af) => .Span (len - 1 - b, af) (len - 1 - a, bf)
  | .Complement c => .Complement (revTrans len c)
  | .Join cs => .Join (List.reverse (revTransList len cs))
  | .Order cs => .Order (List.reverse (revTransList len cs))
  | .Bond cs => .Bond (List.reverse (revTransList len cs))
  | .OneOf cs => .OneOf (List.reverse (revTransList len cs))
  | .External n c => .External n c
  | .Gap l => .Gap l

/-- Child-list traversal of `revTrans`. -/
def revTransList (len : Int) : List Position → List Position
  | [] => []
  | p :: ps => revTrans len p :: revTransList len ps

end

/-- The loop `while a >= len { a -= len }` (repeated subtraction).  For
`len ≤ 0` the Rust loop would never exit once entered; the `0 < len` guard
makes the function total without changing its value for positive lengths. -/
def reduceSub (len a : Int) : Int :=
  if 0 < len ∧ len ≤ a then reduceSub len (a - len) else a
termination_by a.toNat
decreasing_by omega

/-- The loop `while a >= len { a -= len; b -= len }` of `wrap_position`
(Span case) and `unwrap_range`: both components reduced in lockstep, the
guard reading only the first. -/
def reduceSub2 (len a b : Int) : Int × Int :=
  if 0 < len ∧ len ≤ a then reduceSub2 len (a - len) (b - len) else (a, b)
termination_by a.toNat
decreasing_by omega

/-- The loop `while s < 0 { s += len }` (shift normalisation in
`relocate_position`), with the same `0 < len` totality guard. -/
def addWhileNeg (len s : Int) : Int :=
  if 0 < len ∧ s < 0 then addWhileNeg len (s + len) else s
termination_by (-s).toNat
decreasing_by omega

/-- The loop `while start < 0 { start += len; end += len }` of
`unwrap_range`. -/
def addWhileNeg2 (len a b : Int) : Int × Int :=
  if 0 < len ∧ a < 0 then addWhileNeg2 len (a + len) (b + len) else (a, b)
termination_by (-a).toNat
decreasing_by omega

/-- The split of an origin-crossing span inside `wrap_position`: the node
closure turns `Span(a, b)` with `b ≥ len` into a `Join` of the head span and
the wrapped remainder; the traversal then applies the closure to the second
child again, which is the recursive call here (`a` is already `< len`). -/
def wrapSpan (len a : Int) (bf : Bool) (b : Int) (af : Bool) : Position :=
  if 0 < len ∧ len ≤ b then
    .Join [.Span (a, bf) (len - 1, false), wrapSpan len 0 false (b - len) af]
  else .Span (a, bf) (b, af)
termination_by b.toNat
decreasing_by omega

mutual

/-- `Position::transform` specialised to the node closure of
`wrap_position` and the identity value closure: `Single` and `Span` leaves
are reduced by repeated subtraction of `len` (keyed on the left coordinate),
and a span still reaching past the end is split at the origin. -/
def wrapAll (len : Int) : Position → Position
  | .Single a => .Single (reduceSub len a)
  | .Span (a, bf) (b, af) =>
    wrapSpan len (reduceSub2 len a b).1 bf (reduceSub2 len a b).2 af
  | .Between a b => .Between a b
  | .Complement c => .Complement (wrapAll len c)
  | .Join cs => .Join (wrapAllList len cs)
  | .Order cs => .Order (wrapAllList len cs)
  | .Bond cs => .Bond (wrapAllList len cs)
  | .OneOf cs => .OneOf (wrapAllList len cs)
  | .External n c => .External n c
  | .Gap l => .Gap l

/-- Child-list traversal of `wrapAll`. -/
def wrapAllList (len : Int) : List Position → List Position
  | [] => []
  | p :: ps => wrapAll len p :: wrapAllList len ps

end

/-- An annotation (`Feature` in seq.rs).  The interned `FeatureKind` and
`QualifierKey` strings are modelled as `String`. -/
structure Feature where
  kind : String
  pos : Position
  qualifiers : List (String × Option String)

/-- The annotated molecule (`Seq` in seq.rs), restricted to the fields the
coordinate engine reads: the topology, the effective length (the value of
`Seq::len()`, an `i64` in the source) and the feature list.  The nucleotide
buffer and the metadata fields play no role in the claims below; every
operation modelled here preserves them or rebuilds them without consulting
the feature coordinates. -/
structure Seq where
  topology : Topology
  len : Int
  features : List Feature

/-- `Seq::is_circular`. -/
def Seq.is_circular (s : Seq) : Bool :=
  match s.topology with
  | .Circular => true
  | .Linear => false

/-- `Seq::unwrap_range`: normalise an exclusive range.  The linear branch
merely asserts its preconditions in Rust (a panic on violation, not
modelled) and returns the range unchanged. -/
def Seq.unwrap_range (s : Seq) (start e : Int) : Int × Int :=
  match s.topology with
  | .Linear => (start, e)
  | .Circular =>
    let e1 := if start ≥ e then e + s.len else e
    let p1 := reduceSub2 s.len start e1
    addWhileNeg2 s.len p1.1 p1.2

/-- `Seq::range_to_position`.  The Rust circular branch contains
`assert!(end < self.len() * 2, "Range wraps around more than once!")`;
that panic is modelled as `none`. -/
def Seq.range_to_position (s : Seq) (start e : Int) : Option Position :=
  match s.topology with
  | .Linear =>
    if start + 1 = e then some (.Single start)
    else some (Position.simple_span start (e - 1))
  | .Circular =>
    let se := s.unwrap_range start e
    if se.2 > s.len then
      if se.2 < s.len * 2 then
        some (.Join [Position.simple_span se.1 (s.len - 1),
          Position.simple_span 0 (se.2 - s.len - 1)])
      else none
    else if se.1 = se.2 then some (.Single se.1)
    else some (Position.simple_span se.1 (se.2 - 1))

/-- `Seq::unwrap_position`: replace origin-crossing coordinates by
coordinates beyond the origin. -/
def Seq.unwrap_position (s : Seq) (p : Position) :
    Except PositionError Position :=
  match p.find_bounds with
  | .error e => .error e
  | .ok (first, last) =>
    if first < 0 ∨ last ≥ s.len then .error (.OutOfBounds p)
    else if last < first ∧ ¬s.is_circular then .error (.OutOfBounds p)
    else mapValE (fun v => .ok (if v < first then v + s.len else v)) p

/-- `Seq::wrap_position`: wrap coordinates extending past the end of the
sequence back to the origin (the `transform` call, specialised to `wrapAll`,
cannot fail and is unwrapped in Rust), then simplify. -/
def Seq.wrap_position (s : Seq) (p : Position) :
    Except PositionError Position :=
  simplify (wrapAll s.len p)

/-- `Seq::relocate_position`: shift every coordinate by `shift`; on a
circular sequence the shift is first normalised into `[0, len)` and the
result is wrapped. -/
def Seq.relocate_position (s : Seq) (p : Position) (shift : Int) :
    Except PositionError Position :=
  if s.is_circular then
    let sh := reduceSub s.len (addWhileNeg s.len shift)
    s.wrap_position (mapVal (fun v => v + sh) p)
  else
    mapValE (fun v => .ok (v + shift)) p

/-- `Seq::relocate_feature`. -/
def Seq.relocate_feature (s : Seq) (f : Feature) (shift : Int) :
    Except PositionError Feature :=
  match s.relocate_position f.pos shift with
  | .error e => .error e
  | .ok q => .ok { f with pos := q }

/-- `Seq::revcomp_position`: the reverse-strand rewrite (`revTrans`),
followed by toggling the outermost `Complement`. -/
def Seq.revcomp_position (s : Seq) (p : Position) : Position :=
  match revTrans s.len p with
  | .Complement x => x
  | x => .Complement x

/-- `Seq::set_origin`: rotate a circular sequence so that `origin` becomes
coordinate zero.  Only the feature relocation is modelled (the nucleotide
buffer rotation `extract_range_seq(origin, origin)` does not read the
features); features whose relocation fails are dropped, as with the Rust
`flat_map` over `Result`.  The Rust assertions that the sequence is circular
and `origin < len` are panics, not modelled. -/
def Seq.set_origin (s : Seq) (origin : Int) : Seq :=
  { s with
    features := s.features.filterMap
      (fun f => (s.relocate_feature f (-origin)).toOption) }

mutual

/-- A position containing no `External` and no `Gap` node. -/
def extGapFree : Position → Bool
  | .Single _ => true
  | .Between _ _ => true
  | .Span _ _ => true
  | .Complement c => extGapFree c
  | .Join cs => extGapFreeList cs
  | .Order cs => extGapFreeList cs
  | .Bond cs => extGapFreeList cs
  | .OneOf cs => extGapFreeList cs
  | .External _ _ => false
  | .Gap _ => false

/-- List form of `extGapFree`. -/
def extGapFreeList : List Position → Bool
  | [] => true
  | p :: ps => extGapFree p && extGapFreeList ps

end

mutual

/-- A position containing no `Between`, `External` or `Gap` node (the
kinds whose `truncate` or `find_bounds` behaviour ignores the window). -/
def begFree : Position → Bool
  | .Single _ => true
  | .Between _ _ => false
  | .Span _ _ => true
  | .Complement c => begFree c
  | .Join cs => begFreeList cs
  | .Order cs => begFreeList cs
  | .Bond cs => begFreeList cs
  | .OneOf cs => begFreeList cs
  | .External _ _ => false
  | .Gap _ => false

/-- List form of `begFree`. -/
def begFreeList : List Position → Bool
  | [] => true
  | p :: ps => begFree p && begFreeList ps

end

mutual

/-- Every leaf coordinate lies in the window `[s, e)` and every combinator
has at least one child.  Positions in this class have well-defined bounds
inside the window. -/
def allIn (s e : Int) : Position → Prop
  | .Single a => s ≤ a ∧ a < e
  | .Span (a, _) (b, _) => (s ≤ a ∧ a < e) ∧ (s ≤ b ∧ b < e)
  | .Complement c => allIn s e c
  | .Join cs => cs ≠ [] ∧ allInList s e cs
  | .Order cs => cs ≠ [] ∧ allInList s e cs
  | .Bond cs => cs ≠ [] ∧ allInList s e cs
  | .OneOf cs => cs ≠ [] ∧ allInList s e cs
  | .Between _ _ => False
  | .External _ _ => False
  | .Gap _ => False

/-- List form of `allIn`. -/
def allInList (s e : Int) : List Position → Prop
  | [] => True
  | p :: ps => allIn s e p ∧ allInList s e ps

end

/-- A circular sequence of effective length 10 with no features (the shape of
the `Seq` values used by the repository test-suite). -/
def seq10c : Seq := ⟨.Circular, 10, []⟩

/-- A linear sequence of effective length 10 with no features. -/
def seq10l : Seq := ⟨.Linear, 10, []⟩

/-- A circular length-10 sequence holding one feature whose position is the
degenerate span `4..4` (0-based `Span (3, 3)`). -/
def seqDeg : Seq := ⟨.Circular, 10, [⟨"misc", Position.simple_span 3 3, []⟩]⟩

/-- A circular length-10 sequence holding one feature at the proper span
`3..7` (0-based `Span (2, 6)`), as in the repository `set_origin` test. -/
def seqSpan : Seq := ⟨.Circular, 10, [⟨"gene", Position.simple_span 2 6, []⟩]⟩

/-- The positions for which the origin-rotation round trip is proved below:
a `Single` inside `[0, len)`, a span over `0 ≤ a < b < len` with arbitrary
fuzzy flags, the canonical origin-crossing two-piece `Join` produced by the
wrap of a circular location (head span ending exactly at `len - 1` with a
sharp right edge, tail span starting exactly at `0` with a sharp left edge),
and complements of such positions.  This covers every feature shape of the
repository `set_origin` test. -/
inductive RotSafe (len : Int) : Position → Prop where
  | single : ∀ v : Int, 0 ≤ v → v < len → RotSafe len (.Single v)
  | span : ∀ (a b : Int) (bf af : Bool), 0 ≤ a → a < b → b < len →
      RotSafe len (.Span (a, bf) (b, af))
  | cross : ∀ (c d : Int) (bf af : Bool), 0 ≤ c → c < len - 1 → 0 < d →
      d < len →
      RotSafe len (.Join [.Span (c, bf) (len - 1, false),
        .Span (0, false) (d, af)])
  | compl : ∀ p : Position, RotSafe len p → RotSafe len (.Complement p)

/-- A circular length-10 sequence with the four features of the repository
`set_origin` test: a proper span, a full-length span, an origin-crossing
`Join` and a `Single`. -/
def seqRot : Seq := ⟨.Circular, 10,
  [⟨"a", Position.simple_span 2 6, []⟩,
   ⟨"b", Position.simple_span 0 9, []⟩,
   ⟨"c", .Join [Position.simple_span 7 9, Position.simple_span 0 3], []⟩,
   ⟨"d", .Single 0, []⟩]⟩

theorem foldl_min_mem (x : Int) (xs : List Int) :
    xs.foldl min x ∈ x :: xs ∧ ∀ q ∈ x :: xs, xs.foldl min x ≤ q := by
  induction xs generalizing x with
  | nil => simp
  | cons p ps ih =>
    rcases ih (min x p) with ⟨hmem, hle⟩
    rw [List.foldl_cons]
    constructor
    · rcases List.mem_cons.mp hmem with h | h
      · rcases min_choice x p with hc | hc <;> rw [h, hc] <;> simp
      · simp [h]
    · intro q hq
      rcases List.mem_cons.mp hq with rfl | hq
      · exact le_trans (hle (min q p) (List.mem_cons_self _ _)) (min_le_left _ _)
      · rcases List.mem_cons.mp hq with rfl | hq
        · exact le_trans (hle (min x q) (List.mem_cons_self _ _)) (min_le_right _ _)
        · exact hle q (by simp [hq])

theorem foldl_max_mem (x : Int) (xs : List Int) :
    xs.foldl max x ∈ x :: xs ∧ ∀ q ∈ x :: xs, q ≤ xs.foldl max x := by
  induction xs generalizing x with
  | nil => simp
  | cons p ps ih =>
    rcases ih (max x p) with ⟨hmem, hle⟩
    rw [List.foldl_cons]
    constructor
    · rcases List.mem_cons.mp hmem with h | h
      · rcases max_choice x p with hc | hc <;> rw [h, hc] <;> simp
      · simp [h]
    · intro q hq
      rcases List.mem_cons.mp hq with rfl | hq
      · exact le_trans (le_max_left _ _) (hle (max q p) (List.mem_cons_self _ _))
      · rcases List.mem_cons.mp hq with rfl | hq
        · exact le_trans (le_max_right _ _) (hle (max x q) (List.mem_cons_self _ _))
        · exact hle q (by simp [hq])

theorem foldl_minmax_fst (x : Int × Int) (xs : List (Int × Int)) :
    (xs.foldl (fun acc p => (min acc.1 p.1, max acc.2 p.2)) x).1 =
      (xs.map Prod.fst).foldl min x.1 := by
  induction xs generalizing x with
  | nil => simp
  | cons p ps ih => simp [List.foldl_cons, ih]

theorem foldl_minmax_snd (x : Int × Int) (xs : List (Int × Int)) :
    (xs.foldl (fun acc p => (min acc.1 p.1, max acc.2 p.2)) x).2 =
      (xs.map Prod.snd).foldl max x.2 := by
  induction xs generalizing x with
  | nil => simp
  | cons p ps ih => simp [List.foldl_cons, ih]

/-- C6: for a position whose `find_bounds` succeeds with `(first, last)`,
`unwrap_position` fails with `OutOfBounds` exactly when `first < 0`, or
`last ≥ len`, or `last < first` on a non-circular sequence; otherwise it
succeeds and rewrites every leaf coordinate `v < first` to `v + len`,
leaving the other coordinates unchanged. -/
theorem C6_unwrap_position (s : Seq) (p : Position) (first last : Int)
    (hb : p.find_bounds = .ok (first, last)) :
    (s.unwrap_position p = .error (.OutOfBounds p) ↔
      (first < 0 ∨ last ≥ s.len ∨ (last < first ∧ ¬s.is_circular))) ∧
    (¬(first < 0 ∨ last ≥ s.len ∨ (last < first ∧ ¬s.is_circular)) →
      s.unwrap_position p =
        .ok (mapVal (fun v => if v < first then v + s.len else v) p)) := by
  simp only [Seq.unwrap_position, hb]
  by_cases h1 : first < 0 ∨ last ≥ s.len
  · rw [if_pos h1]
    exact ⟨⟨fun _ => by tauto, fun _ => rfl⟩, fun hc => absurd (by tauto) hc⟩
  · rw [if_neg h1]
    by_cases h2 : last < first ∧ ¬s.is_circular
    · rw [if_pos h2]
      exact ⟨⟨fun _ => by tauto, fun _ => rfl⟩, fun hc => absurd (by tauto) hc⟩
    · rw [if_neg h2,
        mapValE_ok (fun v => if v < first then v + s.len else v)]
      refine ⟨⟨fun he => Except.noConfusion he, fun hc => absurd hc (by tauto)⟩,
        fun _ => rfl⟩

theorem C6_unwrap_position_witness :
    (Position.simple_span 2 4).find_bounds = .ok (2, 4) ∧
    ¬((2:Int) < 0 ∨ (4:Int) ≥ seq10c.len ∨
      ((4:Int) < 2 ∧ ¬seq10c.is_circular)) ∧
    seq10c.unwrap_position (Position.simple_span 2 4) =
      .ok (mapVal (fun v => if v < 2 then v + seq10c.len else v)
        (Position.simple_span 2 4)) :=
  ⟨by rw [Position.simple_span, Position.find_bounds],
    by simp [seq10c, Seq.is_circular],
    (C6_unwrap_position seq10c (Position.simple_span 2 4) 2 4
        (by rw [Position.simple_span, Position.find_bounds])).2
      (by simp [seq10c, Seq.is_circular])⟩

/-- C7: `find_bounds` on a `Join` is positional (lo of the first child in
document order, hi of the last), while `Order`, `Bond` and `OneOf` take the
min/max over the children whose bounds succeed, silently skipping failures;
an empty child list yields `Empty`, and `External`/`Gap` yield `Ambiguous`. -/
theorem C7_find_bounds :
    (∀ (c : Position) (cs : List Position) (lo x y hi : Int),
      c.find_bounds = .ok (lo, x) →
      ((c :: cs).getLast (List.cons_ne_nil c cs)).find_bounds = .ok (y, hi) →
      (Position.Join (c :: cs)).find_bounds = .ok (lo, hi)) ∧
    (∀ (cs : List Position) (b : Int × Int) (bs : List (Int × Int)),
      bounds_ok_list cs = b :: bs →
      ∃ lo hi,
        (Position.Order cs).find_bounds = .ok (lo, hi) ∧
        (Position.Bond cs).find_bounds = .ok (lo, hi) ∧
        (Position.OneOf cs).find_bounds = .ok (lo, hi) ∧
        (∀ q ∈ b :: bs, lo ≤ q.1 ∧ q.2 ≤ hi) ∧
        (∃ q ∈ b :: bs, q.1 = lo) ∧ (∃ q ∈ b :: bs, q.2 = hi)) ∧
    (∀ (p : Position) (ps : List Position) (err : PositionError),
      p.find_bounds = .error err →
      bounds_ok_list (p :: ps) = bounds_ok_list ps) ∧
    (∀ (p : Position) (ps : List Position) (ab : Int × Int),
      p.find_bounds = .ok ab →
      bounds_ok_list (p :: ps) = ab :: bounds_ok_list ps) ∧
    (Position.Join []).find_bounds = .error .Empty ∧
    (Position.Order []).find_bounds = .error .Empty ∧
    (Position.Bond []).find_bounds = .error .Empty ∧
    (Position.OneOf []).find_bounds = .error .Empty ∧
    (∀ (n : String) (c : Option Position),
      (Position.External n c).find_bounds = .error (.Ambiguous (.External n c))) ∧
    (∀ l, (Position.Gap l).find_bounds = .error (.Ambiguous (.Gap l))) := by
  refine ⟨?_, ?_, ?_, ?_, by simp [Position.find_bounds],
    by simp [Position.find_bounds, bounds_ok_list],
    by simp [Position.find_bounds, bounds_ok_list],
    by simp [Position.find_bounds, bounds_ok_list],
    fun n c => by rw [Position.find_bounds],
    fun l => by rw [Position.find_bounds]⟩
  · intro c cs lo x y hi h1 h2
    rw [Position.find_bounds]
    rw [h1, h2]
  · intro cs b bs hb
    refine ⟨(bs.foldl (fun acc p => (min acc.1 p.1, max acc.2 p.2)) b).1,
      (bs.foldl (fun acc p => (min acc.1 p.1, max acc.2 p.2)) b).2,
      by rw [Position.find_bounds, hb],
      by rw [Position.find_bounds, hb],
      by rw [Position.find_bounds, hb], ?_, ?_, ?_⟩
    · intro q hq
      constructor
      · rw [foldl_minmax_fst]
        refine (foldl_min_mem b.1 (bs.map Prod.fst)).2 q.1 ?_
        rcases List.mem_cons.mp hq with rfl | hq
        · simp
        · exact List.mem_cons_of_mem _ (List.mem_map.mpr ⟨q, hq, rfl⟩)
      · rw [foldl_minmax_snd]
        refine (foldl_max_mem b.2 (bs.map Prod.snd)).2 q.2 ?_
        rcases List.mem_cons.mp hq with rfl | hq
        · simp
        · exact List.mem_cons_of_mem _ (List.mem_map.mpr ⟨q, hq, rfl⟩)
    · rw [foldl_minmax_fst]
      rcases List.mem_cons.mp ((foldl_min_mem b.1 (bs.map Prod.fst)).1)
        with h | h
      · exact ⟨b, by simp, h.symm⟩
      · rcases List.mem_map.mp h with ⟨q, hq, hq2⟩
        exact ⟨q, by simp [hq], hq2⟩
    · rw [foldl_minmax_snd]
      rcases List.mem_cons.mp ((foldl_max_mem b.2 (bs.map Prod.snd)).1)
        with h | h
      · exact ⟨b, by simp, h.symm⟩
      · rcases List.mem_map.mp h with ⟨q, hq, hq2⟩
        exact ⟨q, by simp [hq], hq2⟩
  · intro p ps err h
    rw [bounds_ok_list, h]
  · intro p ps ab h
    rw [bounds_ok_list, h]

theorem C7_find_bounds_witness :
    (Position.simple_span 7 9).find_bounds = .ok (7, 9) ∧
    ((Position.simple_span 7 9 :: [Position.simple_span 0 3]).getLast
      (List.cons_ne_nil _ _)).find_bounds = .ok (0, 3) ∧
    (Position.Join [Position.simple_span 7 9,
      Position.simple_span 0 3]).find_bounds = .ok (7, 3) :=
  ⟨by rw [Position.simple_span, Position.find_bounds],
    by simp [Position.simple_span, Position.find_bounds, List.getLast],
    C7_find_bounds.1 (Position.simple_span 7 9) [Position.simple_span 0 3]
      7 9 0 3 (by rw [Position.simple_span, Position.find_bounds])
      (by simp [Position.simple_span, Position.find_bounds, List.getLast])⟩

/-- C3: on a circular sequence `wrap_position` reduces the endpoints of every
`Single` and `Span` leaf modulo `len` by repeated subtraction (keyed on the
left coordinate), a span whose reduced right endpoint is still `≥ len` is
split into `Join(Span((a,bf),(len-1,false)), Span((0,false),(b-len,af)))`,
the other variants are unchanged, and the result is simplified; on a circular
sequence of length 10, wrapping `simple_span(9,14)` formats as
`join(10,1..5)`. -/
theorem C3_wrap_position :
    (∀ (s : Seq) (p : Position), s.wrap_position p = simplify (wrapAll s.len p)) ∧
    (∀ len v : Int, wrapAll len (.Single v) = .Single (reduceSub len v)) ∧
    (∀ (len a : Int) (bf : Bool) (b : Int) (af : Bool), 0 < len →
      (reduceSub2 len a b).2 < len →
      wrapAll len (.Span (a, bf) (b, af)) =
        .Span ((reduceSub2 len a b).1, bf) ((reduceSub2 len a b).2, af)) ∧
    (∀ (len a : Int) (bf : Bool) (b : Int) (af : Bool), 0 < len →
      len ≤ (reduceSub2 len a b).2 → (reduceSub2 len a b).2 < 2 * len →
      wrapAll len (.Span (a, bf) (b, af)) =
        .Join [.Span ((reduceSub2 len a b).1, bf) (len - 1, false),
          .Span (0, false) ((reduceSub2 len a b).2 - len, af)]) ∧
    (∀ len a b : Int, wrapAll len (.Between a b) = .Between a b) ∧
    (seq10c.wrap_position (Position.simple_span 9 14) =
      .ok (.Join [.Single 9, Position.simple_span 0 4])) ∧
    (Position.Join [.Single 9, Position.simple_span 0 4]).to_gb_format =
      "join(10,1..5)" := by
  refine ⟨fun s p => rfl, fun len v => by rw [wrapAll], ?_, ?_,
    fun len a b => by rw [wrapAll], ?_, ?_⟩
  · intro len a bf b af hlen hb
    rw [wrapAll, wrapSpan, if_neg (by omega)]
  · intro len a bf b af hlen hge hlt
    rw [wrapAll, wrapSpan, if_pos ⟨hlen, hge⟩, wrapSpan, if_neg (by omega)]
  · simp [Seq.wrap_position, seq10c, wrapAll, wrapSpan, reduceSub2, simplify,
      simplify_shallow, simplifyImpl, simplifyList, flatten_join, merge_adjacent,
      collapse_span, Position.simple_span]
  · simp only [Position.simple_span, Position.to_gb_format, position_list]
    decide

theorem C3_wrap_position_witness :
    0 < (10:Int) ∧ 10 ≤ (reduceSub2 10 9 14).2 ∧ (reduceSub2 10 9 14).2 < 2 * 10 ∧
    wrapAll 10 (.Span ((9:Int), false) ((14:Int), false)) =
      .Join [.Span ((reduceSub2 10 9 14).1, false) (10 - 1, false),
        .Span (0, false) ((reduceSub2 10 9 14).2 - 10, false)] :=
  ⟨by norm_num, by simp [reduceSub2], by simp [reduceSub2],
    C3_wrap_position.2.2.2.1 10 9 false 14 false (by norm_num)
      (by simp [reduceSub2]) (by simp [reduceSub2])⟩

/-- C10 counterexample: the claim says only `Single` and `Span` leaves with
left coordinate `≥ len` are altered, but `wrap_position` splits the span
`Span(5, 12)` (left coordinate `5 < 10`) into a `Join`. -/
theorem C10_counterexample :
    seq10c.wrap_position (Position.simple_span 5 12) =
      .ok (.Join [Position.simple_span 5 9, Position.simple_span 0 2]) ∧
    Position.Join [Position.simple_span 5 9, Position.simple_span 0 2] ≠
      Position.simple_span 5 12 := by
  constructor
  · simp [Seq.wrap_position, seq10c, wrapAll, wrapSpan, reduceSub2, simplify,
      simplify_shallow, simplifyImpl, simplifyList, flatten_join, merge_adjacent,
      collapse_span, Position.simple_span]
  · simp [Position.simple_span]

/-- C10 (amended): the wrap traversal leaves unchanged every `Single` with
value `< len` (negative values are not wrapped up into `[0, len)`), every
`Span` whose left *and* right coordinates are `< len`, and every `Between`
even when its endpoints are `≥ len`; on the full pipeline a `Single` below
`len` survives `wrap_position` unchanged. -/
theorem C10_wrap_below_len :
    (∀ len v : Int, v < len → wrapAll len (.Single v) = .Single v) ∧
    (∀ (len a : Int) (bf : Bool) (b : Int) (af : Bool), a < len → b < len →
      wrapAll len (.Span (a, bf) (b, af)) = .Span (a, bf) (b, af)) ∧
    (∀ len a b : Int, wrapAll len (.Between a b) = .Between a b) ∧
    (∀ (s : Seq) (v : Int), v < s.len →
      s.wrap_position (.Single v) = .ok (.Single v)) := by
  have hsingle : ∀ len v : Int, v < len → wrapAll len (.Single v) = .Single v := by
    intro len v h
    rw [wrapAll, reduceSub, if_neg (by omega)]
  refine ⟨hsingle, ?_, fun len a b => by rw [wrapAll], ?_⟩
  · intro len a bf b af ha hb
    have h2 : reduceSub2 len a b = (a, b) := by
      rw [reduceSub2, if_neg (by omega)]
    rw [wrapAll, h2]
    show wrapSpan len a bf b af = _
    rw [wrapSpan, if_neg (by omega)]
  · intro s v h
    rw [Seq.wrap_position, hsingle _ _ h]
    simp [simplify, simplify_shallow, simplifyImpl]

theorem C10_wrap_below_len_witness :
    (-5:Int) < 10 ∧ wrapAll 10 (.Single (-5)) = .Single (-5) :=
  ⟨by norm_num, C10_wrap_below_len.1 10 (-5) (by norm_num)⟩

/-- C5: on a circular sequence `range_to_position` first normalises the
range with `unwrap_range`; when the normalised end exceeds `len` it returns
the stated origin-crossing `Join`, and the Rust assertion (a panic) fires
when the range wraps more than once; concretely
`range_to_position(5, 11)` on a circular length-10 sequence formats as
`join(6..10,1..1)`. -/
theorem C5_range_to_position :
    (∀ (s : Seq) (start e : Int), s.topology = .Circular →
      s.len < (s.unwrap_range start e).2 →
      ((s.unwrap_range start e).2 < s.len * 2 →
        s.range_to_position start e = some (.Join
          [Position.simple_span (s.unwrap_range start e).1 (s.len - 1),
            Position.simple_span 0 ((s.unwrap_range start e).2 - s.len - 1)])) ∧
      (s.len * 2 ≤ (s.unwrap_range start e).2 →
        s.range_to_position start e = none)) ∧
    (seq10c.range_to_position 5 11).map Position.to_gb_format =
      some "join(6..10,1..1)" := by
  constructor
  · intro s start e htop hgt
    constructor
    · intro hlt
      simp only [Seq.range_to_position, htop]
      rw [if_pos (by omega), if_pos (by omega)]
    · intro hge
      simp only [Seq.range_to_position, htop]
      rw [if_pos (by omega), if_neg (by omega)]
  · simp [Seq.range_to_position, seq10c, Seq.unwrap_range, reduceSub2,
      addWhileNeg2, Position.simple_span, Position.to_gb_format, position_list]
    decide

theorem C5_range_to_position_witness :
    seq10c.topology = .Circular ∧
    seq10c.len < (seq10c.unwrap_range 5 11).2 ∧
    (seq10c.unwrap_range 5 11).2 < seq10c.len * 2 ∧
    seq10c.range_to_position 5 11 = some (.Join
      [Position.simple_span (seq10c.unwrap_range 5 11).1 (seq10c.len - 1),
        Position.simple_span 0 ((seq10c.unwrap_range 5 11).2 - seq10c.len - 1)]) :=
  ⟨rfl, by simp [seq10c, Seq.unwrap_range, reduceSub2, addWhileNeg2],
    by simp [seq10c, Seq.unwrap_range, reduceSub2, addWhileNeg2],
    (C5_range_to_position.1 seq10c 5 11 rfl
      (by simp [seq10c, Seq.unwrap_range, reduceSub2, addWhileNeg2])).1
      (by simp [seq10c, Seq.unwrap_range, reduceSub2, addWhileNeg2])⟩

/-- C9: on a linear sequence `relocate_position` never fails: it returns
`Ok` of the translated tree for every position and every shift, with no
bounds check. -/
theorem C9_relocate_linear_total (s : Seq) (p : Position) (shift : Int)
    (h : s.topology = .Linear) :
    s.relocate_position p shift = .ok (mapVal (fun v => v + shift) p) := by
  rw [Seq.relocate_position, if_neg (by simp [Seq.is_circular, h])]
  exact mapValE_ok _ p

theorem C9_relocate_linear_total_witness :
    seq10l.topology = .Linear ∧
    seq10l.relocate_position (.Single 100) (-7) =
      .ok (mapVal (fun v => v + (-7)) (.Single 100)) :=
  ⟨rfl, C9_relocate_linear_total seq10l (.Single 100) (-7) rfl⟩

/-- C8 counterexample: truncating `1..5` (0-based `Span(1, 5)`) to the window
`[0, 2)` does not return the span with its right endpoint shrunk to `1`
(that would be `Span(1, 1)`); the shallow simplification collapses it to
`Single(1)`. -/
theorem C8_counterexample :
    (Position.simple_span 1 5).truncate 0 2 = some (.Single 1) ∧
    Position.Single 1 ≠ Position.simple_span 1 1 := by
  constructor
  · simp [Position.truncate, Position.simple_span, simplify_shallow_unwrap,
      simplify_shallow]
  · simp [Position.simple_span]

/-- C8 (amended): when only `a` lies in the window the result is the span
with right endpoint `end-1` and cleared fuzzy flag *after shallow
simplification* (which collapses a degenerate result to a `Single`);
symmetrically when only `b` lies in the window; the two concrete examples
hold as stated. -/
theorem C8_truncate_span_edges :
    (∀ (a : Int) (bf : Bool) (b : Int) (af : Bool) (start e : Int),
      start ≤ a → a < e → ¬(start ≤ b ∧ b < e) →
      (Position.Span (a, bf) (b, af)).truncate start e =
        some (simplify_shallow_unwrap (.Span (a, bf) (e - 1, false)))) ∧
    (∀ (a : Int) (bf : Bool) (b : Int) (af : Bool) (start e : Int),
      ¬(start ≤ a ∧ a < e) → start ≤ b → b < e →
      (Position.Span (a, bf) (b, af)).truncate start e =
        some (simplify_shallow_unwrap (.Span (start, false) (b, af)))) ∧
    (Position.simple_span 0 2).truncate 1 2 = some (.Single 1) ∧
    (Position.simple_span 0 1).truncate 3 4 = none := by
  refine ⟨?_, ?_, ?_, ?_⟩
  · intro a bf b af start e h1 h2 h3
    rw [Position.truncate, if_pos ⟨h1, h2⟩, if_neg h3]
  · intro a bf b af start e h1 h2 h3
    rw [Position.truncate, if_neg h1, if_pos ⟨h2, h3⟩]
  · simp [Position.truncate, Position.simple_span, simplify_shallow_unwrap,
      simplify_shallow]
  · simp [Position.truncate, Position.simple_span]

theorem C8_truncate_span_edges_witness :
    (0:Int) ≤ 1 ∧ (1:Int) < 2 ∧ ¬((0:Int) ≤ 5 ∧ (5:Int) < 2) ∧
    (Position.Span ((1:Int), false) ((5:Int), false)).truncate 0 2 =
      some (simplify_shallow_unwrap (.Span (1, false) (2 - 1, false))) :=
  ⟨by norm_num, by norm_num, by norm_num,
    C8_truncate_span_edges.1 1 false 5 false 0 2 (by norm_num) (by norm_num)
      (by norm_num)⟩

/-- C1 counterexample: `truncate` keeps `Gap` positions (whose `find_bounds`
fails) and `Between` positions whose other endpoint lies far outside the
window, so the result of a truncation need not have bounds inside the
window. -/
theorem C1_counterexample :
    (Position.Gap none).truncate 0 1 = some (.Gap none) ∧
    (Position.Gap none).find_bounds = .error (.Ambiguous (.Gap none)) ∧
    (Position.Between 0 100).truncate 0 2 = some (.Between 0 100) ∧
    (Position.Between 0 100).find_bounds = .ok (0, 100) ∧ ¬((100:Int) < 2) := by
  refine ⟨by rw [Position.truncate], by rw [Position.find_bounds], ?_,
    by rw [Position.find_bounds], by norm_num⟩
  rw [Position.truncate, if_pos (by norm_num)]

/-- C2 counterexample: applying `revcomp_position` twice to the degenerate
span `Span(3, 3)` (which contains no `External` and no `Gap`) returns the
span unchanged, while `simplify` collapses it to `Single(3)`. -/
theorem C2_counterexample :
    extGapFree (Position.simple_span 3 3) = true ∧
    seq10l.revcomp_position (seq10l.revcomp_position (Position.simple_span 3 3)) =
      Position.simple_span 3 3 ∧
    simplify (Position.simple_span 3 3) = .ok (.Single 3) ∧
    Position.simple_span 3 3 ≠ Position.Single 3 := by
  refine ⟨by simp [extGapFree, Position.simple_span], ?_, ?_,
    by simp [Position.simple_span]⟩
  · simp [Seq.revcomp_position, revTrans, seq10l, Position.simple_span]
  · simp [simplify, simplify_shallow, simplifyImpl, Position.simple_span]

theorem revTransList_eq_map (len : Int) (l : List Position) :
    revTransList len l = l.map (revTrans len) := by
  induction l with
  | nil => rw [revTransList]; rfl
  | cons p ps ih => rw [revTransList, ih]; rfl

theorem revTrans_revTrans (len : Int) (p : Position) :
    revTrans len (revTrans len p) = p := by
  induction p using position_induction
    (Q := fun l => revTransList len (revTransList len l) = l) with
  | h1 v => simp only [revTrans, Position.Single.injEq]; omega
  | h2 a b => simp only [revTrans, Position.Between.injEq]; omega
  | h3 a bf b af =>
    simp only [revTrans, Position.Span.injEq, Prod.mk.injEq]
    refine ⟨⟨by omega, trivial⟩, by omega, trivial⟩
  | h4 c ih => rw [revTrans, revTrans, ih]
  | h5 cs ih =>
    rw [revTransList_eq_map, revTransList_eq_map] at ih
    simp only [revTrans, revTransList_eq_map, List.map_reverse,
      List.reverse_reverse]
    rw [ih]
  | h6 cs ih =>
    rw [revTransList_eq_map, revTransList_eq_map] at ih
    simp only [revTrans, revTransList_eq_map, List.map_reverse,
      List.reverse_reverse]
    rw [ih]
  | h7 cs ih =>
    rw [revTransList_eq_map, revTransList_eq_map] at ih
    simp only [revTrans, revTransList_eq_map, List.map_reverse,
      List.reverse_reverse]
    rw [ih]
  | h8 cs ih =>
    rw [revTransList_eq_map, revTransList_eq_map] at ih
    simp only [revTrans, revTransList_eq_map, List.map_reverse,
      List.reverse_reverse]
    rw [ih]
  | h9 n c => rw [revTrans, revTrans]
  | h10 l => rw [revTrans, revTrans]
  | hnil => rw [revTransList, revTransList]
  | hcons q qs ihq ihqs =>
    simp only [revTransList]
    rw [ihq, ihqs]

theorem revTrans_not_complement {len : Int} {p : Position}
    (h : ∀ c, p ≠ .Complement c) : ∀ c, revTrans len p ≠ .Complement c := by
  cases p <;> intro c hc <;> first
    | exact h _ rfl
    | (rw [revTrans] at hc; cases hc)

theorem revcomp_of_not_complement {s : Seq} {p : Position}
    (h : ∀ c, revTrans s.len p ≠ .Complement c) :
    s.revcomp_position p = .Complement (revTrans s.len p) := by
  unfold Seq.revcomp_position
  split
  · rename_i x heq; exact absurd heq (h x)
  · rfl

theorem revcomp_complement (s : Seq) (c : Position) :
    s.revcomp_position (.Complement c) = revTrans s.len c := by
  unfold Seq.revcomp_position
  rw [revTrans]

/-- C2 (amended): for every position containing no `External` and no `Gap`
node and not headed by a doubled `Complement`, applying `revcomp_position`
twice is the identity (not `simplify`: the reverse-complement pipeline never
simplifies). -/
theorem C2_revcomp_involution (s : Seq) (p : Position)
    (hfree : extGapFree p = true)
    (hdc : ∀ q, p ≠ .Complement (.Complement q)) :
    s.revcomp_position (s.revcomp_position p) = p := by
  by_cases hcp : ∀ c, p ≠ .Complement c
  · rw [revcomp_of_not_complement (revTrans_not_complement hcp),
      revcomp_complement, revTrans_revTrans]
  · push_neg at hcp
    rcases hcp with ⟨c, rfl⟩
    have hc : ∀ d, c ≠ .Complement d := fun d hd => hdc d (by rw [hd])
    rw [revcomp_complement,
      revcomp_of_not_complement (revTrans_not_complement (revTrans_not_complement hc)),
      revTrans_revTrans]

theorem C2_revcomp_involution_witness :
    extGapFree (Position.Join [.Single 0, .Complement (.Single 1)]) = true ∧
    (∀ q, Position.Join [.Single 0, .Complement (.Single 1)] ≠
      .Complement (.Complement q)) ∧
    seq10l.revcomp_position (seq10l.revcomp_position
      (Position.Join [.Single 0, .Complement (.Single 1)])) =
      Position.Join [.Single 0, .Complement (.Single 1)] :=
  ⟨by simp [extGapFree, extGapFreeList], fun q => by simp,
    C2_revcomp_involution seq10l _
      (by simp [extGapFree, extGapFreeList]) (fun q => by simp)⟩

/-- C4 counterexample: on a circular length-10 sequence holding one feature
at the degenerate span `Span(3, 3)`, rotating the origin by 1 and back by 9
does not restore the feature list — the relocation pipeline simplifies the
span to `Single(2)` on the way out and returns `Single(3)`. -/
theorem C4_counterexample :
    ((seqDeg.set_origin 1).set_origin (10 - 1)).features ≠ seqDeg.features := by
  simp [seqDeg, Seq.set_origin, Seq.relocate_feature, Seq.relocate_position,
    Seq.is_circular, Seq.wrap_position, addWhileNeg, reduceSub, reduceSub2,
    mapVal, wrapAll, wrapSpan, simplify, simplify_shallow, simplifyImpl,
    Position.simple_span, Except.toOption]

theorem allInList_append {s e : Int} {l1 l2 : List Position} :
    allInList s e (l1 ++ l2) ↔ allInList s e l1 ∧ allInList s e l2 := by
  induction l1 with
  | nil => simp [allInList]
  | cons p ps ih => simp [allInList, ih, and_assoc]

theorem allInList_mem {s e : Int} {l : List Position} (h : allInList s e l)
    {q : Position} (hq : q ∈ l) : allIn s e q := by
  induction l with
  | nil => cases hq
  | cons p ps ih =>
    rw [allInList] at h
    rcases List.mem_cons.mp hq with rfl | hq
    · exact h.1
    · exact ih h.2 hq

theorem bounds_ok_list_window {s e : Int} :
    ∀ {cs : List Position},
      (∀ q ∈ cs, ∃ lo hi, q.find_bounds = .ok (lo, hi) ∧ s ≤ lo ∧ hi < e) →
      (∀ ab ∈ bounds_ok_list cs, s ≤ ab.1 ∧ ab.2 < e) ∧
        (cs ≠ [] → bounds_ok_list cs ≠ []) := by
  intro cs
  induction cs with
  | nil => exact fun h => ⟨by simp [bounds_ok_list], by simp⟩
  | cons p ps ih =>
    intro h
    rcases h p (by simp) with ⟨lo, hi, hb, hlo, hhi⟩
    simp only [bounds_ok_list, hb]
    refine ⟨?_, fun _ => by simp⟩
    intro ab hab
    rcases List.mem_cons.mp hab with rfl | hab
    · exact ⟨hlo, hhi⟩
    · exact (ih (fun q hq => h q (by simp [hq]))).1 ab hab

theorem fold_bounds_window {s e : Int} {b : Int × Int} {bs : List (Int × Int)}
    (hall : ∀ ab ∈ b :: bs, s ≤ ab.1 ∧ ab.2 < e) :
    s ≤ (bs.foldl (fun acc p => (min acc.1 p.1, max acc.2 p.2)) b).1 ∧
    (bs.foldl (fun acc p => (min acc.1 p.1, max acc.2 p.2)) b).2 < e := by
  constructor
  · rw [foldl_minmax_fst]
    rcases List.mem_cons.mp (foldl_min_mem b.1 (bs.map Prod.fst)).1 with h | h
    · rw [h]; exact (hall b (by simp)).1
    · rcases List.mem_map.mp h with ⟨q, hq, hq2⟩
      rw [← hq2]; exact (hall q (by simp [hq])).1
  · rw [foldl_minmax_snd]
    rcases List.mem_cons.mp (foldl_max_mem b.2 (bs.map Prod.snd)).1 with h | h
    · rw [h]; exact (hall b (by simp)).2
    · rcases List.mem_map.mp h with ⟨q, hq, hq2⟩
      rw [← hq2]; exact (hall q (by simp [hq])).2

theorem allIn_bounds {s e : Int} : ∀ p : Position, allIn s e p →
    ∃ lo hi, p.find_bounds = .ok (lo, hi) ∧ s ≤ lo ∧ hi < e := by
  intro p
  induction p using position_induction
    (Q := fun l => allInList s e l →
      ∀ q ∈ l, ∃ lo hi, q.find_bounds = .ok (lo, hi) ∧ s ≤ lo ∧ hi < e) with
  | h1 v =>
    intro h; rw [allIn] at h
    exact ⟨v, v, by rw [Position.find_bounds], h.1, h.2⟩
  | h2 a b => intro h; rw [allIn] at h; exact h.elim
  | h3 a bf b af =>
    intro h; rw [allIn] at h
    exact ⟨a, b, by rw [Position.find_bounds], h.1.1, h.2.2⟩
  | h4 c ih =>
    intro h; rw [allIn] at h
    rcases ih h with ⟨lo, hi, hb, h1, h2⟩
    exact ⟨lo, hi, by rw [Position.find_bounds, hb], h1, h2⟩
  | h5 cs ih =>
    intro h; rw [allIn] at h
    rcases h with ⟨hne, hall⟩
    rcases cs with _ | ⟨c, rest⟩
    · exact absurd rfl hne
    rcases ih hall c (by simp) with ⟨lo, x, hbc, hlo, _⟩
    rcases ih hall ((c :: rest).getLast (List.cons_ne_nil c rest))
      (List.getLast_mem _) with ⟨y, hi, hbl, _, hhi⟩
    refine ⟨lo, hi, ?_, hlo, hhi⟩
    rw [Position.find_bounds]
    rw [hbc, hbl]
  | h6 cs ih =>
    intro h; rw [allIn] at h
    rcases h with ⟨hne, hall⟩
    have hw := bounds_ok_list_window (fun q hq => ih hall q hq)
    rcases hb : bounds_ok_list cs with _ | ⟨b, bs⟩
    · exact absurd hb (hw.2 hne)
    · have hall2 : ∀ ab ∈ b :: bs, s ≤ ab.1 ∧ ab.2 < e := by
        rw [← hb]; exact hw.1
      exact ⟨_, _, by rw [Position.find_bounds, hb],
        (fold_bounds_window hall2).1, (fold_bounds_window hall2).2⟩
  | h7 cs ih =>
    intro h; rw [allIn] at h
    rcases h with ⟨hne, hall⟩
    have hw := bounds_ok_list_window (fun q hq => ih hall q hq)
    rcases hb : bounds_ok_list cs with _ | ⟨b, bs⟩
    · exact absurd hb (hw.2 hne)
    · have hall2 : ∀ ab ∈ b :: bs, s ≤ ab.1 ∧ ab.2 < e := by
        rw [← hb]; exact hw.1
      exact ⟨_, _, by rw [Position.find_bounds, hb],
        (fold_bounds_window hall2).1, (fold_bounds_window hall2).2⟩
  | h8 cs ih =>
    intro h; rw [allIn] at h
    rcases h with ⟨hne, hall⟩
    have hw := bounds_ok_list_window (fun q hq => ih hall q hq)
    rcases hb : bounds_ok_list cs with _ | ⟨b, bs⟩
    · exact absurd hb (hw.2 hne)
    · have hall2 : ∀ ab ∈ b :: bs, s ≤ ab.1 ∧ ab.2 < e := by
        rw [← hb]; exact hw.1
      exact ⟨_, _, by rw [Position.find_bounds, hb],
        (fold_bounds_window hall2).1, (fold_bounds_window hall2).2⟩
  | h9 n c => intro h; rw [allIn] at h; exact h.elim
  | h10 l => intro h; rw [allIn] at h; exact h.elim
  | hnil =>
    rename_i h q hq
    cases hq
  | hcons p ps ihp ihps =>
    rename_i h q hq
    rw [allInList] at h
    rcases List.mem_cons.mp hq with rfl | hq
    · exact ihp h.1
    · exact ihps h.2 q hq

theorem flatten_allIn {s e : Int} :
    ∀ {l : List Position}, allInList s e l →
      allInList s e (flatten_join l) ∧ (l ≠ [] → flatten_join l ≠ []) := by
  intro l
  induction l using flatten_join.induct with
  | case1 =>
    intro _
    exact ⟨by rw [flatten_join, allInList]; trivial, by simp⟩
  | case2 xs rest ih1 ih2 =>
    intro h
    rw [allInList] at h
    obtain ⟨hj, hrest⟩ := h
    rw [allIn] at hj
    rw [flatten_join]
    refine ⟨allInList_append.mpr ⟨(ih1 hj.2).1, (ih2 hrest).1⟩, ?_⟩
    intro _ hc
    exact (ih1 hj.2).2 hj.1 (List.append_eq_nil.mp hc).1
  | case3 p rest hp ih =>
    intro h
    rw [allInList] at h
    rw [flatten_join]
    · refine ⟨?_, fun _ => by simp⟩
      rw [allInList]
      exact ⟨h.1, (ih h.2).1⟩
    · exact hp

theorem merge_ne_nil : ∀ l : List Position, l ≠ [] → merge_adjacent l ≠ [] := by
  intro l
  induction l using merge_adjacent.induct <;>
    intro h <;> simp_all [merge_adjacent]

theorem merge_allInList {s e : Int} :
    ∀ l : List Position, allInList s e l →
      allInList s e (merge_adjacent l) := by
  intro l
  induction l using merge_adjacent.induct with
  | case1 => intro h; rw [merge_adjacent]; trivial
  | case2 q => intro h; rw [merge_adjacent]; exact h
  | case3 rest a ih =>
    intro h
    simp only [allInList, allIn] at h
    simp only [merge_adjacent, if_pos rfl]
    refine ih ?_
    simp only [allInList, allIn, Position.simple_span]
    exact ⟨⟨h.1, h.2.1⟩, h.2.2⟩
  | case4 rest a b h1 h2 ih =>
    intro h
    simp only [allInList] at h
    rw [merge_adjacent, if_neg h1, if_pos h2]
    rw [allInList]
    exact ⟨h.1, ih (by rw [allInList]; exact h.2)⟩
  | case5 rest a b h1 h2 ih =>
    intro h
    simp only [allInList] at h
    rw [merge_adjacent, if_neg h1, if_neg h2]
    exact ih (by rw [allInList]; exact ⟨h.1, h.2.2⟩)
  | case6 rest a d ih =>
    intro h
    simp only [allInList, allIn] at h
    simp only [merge_adjacent, if_pos rfl]
    refine ih ?_
    simp only [allInList, allIn]
    exact ⟨⟨h.1, h.2.1.2⟩, h.2.2⟩
  | case7 rest a c d h1 ih =>
    intro h
    simp only [allInList] at h
    rw [merge_adjacent, if_neg h1]
    rw [allInList]
    exact ⟨h.1, ih (by rw [allInList]; exact h.2)⟩
  | case8 rest a b ih =>
    intro h
    simp only [allInList, allIn] at h
    simp only [merge_adjacent, if_pos rfl]
    refine ih ?_
    simp only [allInList, allIn]
    exact ⟨⟨h.1.1, h.2.1⟩, h.2.2⟩
  | case9 rest a b d h1 ih =>
    intro h
    simp only [allInList] at h
    rw [merge_adjacent, if_neg h1]
    rw [allInList]
    exact ⟨h.1, ih (by rw [allInList]; exact h.2)⟩
  | case10 rest a b d ih =>
    intro h
    simp only [allInList, allIn] at h
    simp only [merge_adjacent, if_pos rfl]
    refine ih ?_
    simp only [allInList, allIn]
    exact ⟨⟨h.1.1, h.2.1.2⟩, h.2.2⟩
  | case11 rest a b c d h1 ih =>
    intro h
    simp only [allInList] at h
    rw [merge_adjacent, if_neg h1]
    rw [allInList]
    exact ⟨h.1, ih (by rw [allInList]; exact h.2)⟩
  | case12 rest p q hf1 hf2 hf3 hf4 ih =>
    intro h
    simp only [allInList] at h
    have heq : merge_adjacent (p :: q :: rest) = p :: merge_adjacent (q :: rest) := by
      rcases p with v|⟨a,b⟩|⟨⟨a1,f1⟩,⟨a2,f2⟩⟩|c|cs|cs|cs|cs|⟨n,c⟩|lg <;>
        rcases q with w|⟨a3,b3⟩|⟨⟨a4,f4⟩,⟨a5,f5⟩⟩|c3|cs3|cs3|cs3|cs3|⟨n3,c3⟩|lg3 <;>
        (try cases f2) <;> (try cases f4) <;>
        first
          | exact (hf1 _ _ rfl rfl).elim
          | exact (hf2 _ _ _ rfl rfl).elim
          | exact (hf3 _ _ _ rfl rfl).elim
          | exact (hf4 _ _ _ _ rfl rfl).elim
          | simp [merge_adjacent]
    rw [heq, allInList]
    exact ⟨h.1, ih (by rw [allInList]; exact h.2)⟩

theorem collapse_allIn {s e : Int} {p : Position} (h : allIn s e p) :
    allIn s e (collapse_span p) := by
  cases p with
  | Span ab cd =>
    rcases ab with ⟨a, bf⟩; rcases cd with ⟨b, af⟩
    rw [allIn] at h
    cases bf <;> cases af
    case false.false =>
      simp only [collapse_span]
      split
      · rw [allIn]; exact h.1
      · rw [allIn]; exact h
    all_goals (simp only [collapse_span]; rw [allIn]; exact h)
  | _ => simp only [collapse_span]; assumption

theorem shallow_allIn {s e : Int} {p : Position} (h : allIn s e p) :
    ∃ q, simplify_shallow p = .ok q ∧ allIn s e q := by
  cases p with
  | Join xs =>
    rw [allIn] at h
    obtain ⟨hne, hall⟩ := h
    have hf := flatten_allIn hall
    have hm := merge_allInList (flatten_join xs) hf.1
    have hmne : merge_adjacent (flatten_join xs) ≠ [] :=
      merge_ne_nil _ (hf.2 hne)
    rcases hmm : merge_adjacent (flatten_join xs) with _ | ⟨x, _ | ⟨y, rest⟩⟩
    · exact absurd hmm hmne
    · refine ⟨collapse_span x, ?_, ?_⟩
      · rw [simplify_shallow, if_neg (by simpa using hne), hmm]
      · rw [hmm, allInList] at hm
        exact collapse_allIn hm.1
    · refine ⟨.Join (x :: y :: rest), ?_, ?_⟩
      · rw [simplify_shallow, if_neg (by simpa using hne), hmm]
      · rw [hmm] at hm
        rw [allIn]
        exact ⟨by simp, hm⟩
  | Span ab cd =>
    rcases ab with ⟨a, bf⟩; rcases cd with ⟨b, af⟩
    rw [allIn] at h
    cases bf <;> cases af
    case false.false =>
      by_cases hab : a = b
      · subst hab
        exact ⟨.Single a, by rw [simplify_shallow, if_pos rfl],
          by rw [allIn]; exact h.1⟩
      · exact ⟨.Span (a, false) (b, false), by rw [simplify_shallow, if_neg hab],
          by rw [allIn]; exact h⟩
    case false.true =>
      refine ⟨.Span (a, false) (b, true), ?_, by rw [allIn]; exact h⟩
      rw [simplify_shallow]
      · simp
      · simp
    case true.false =>
      refine ⟨.Span (a, true) (b, false), ?_, by rw [allIn]; exact h⟩
      rw [simplify_shallow]
      · simp
      · simp
    case true.true =>
      refine ⟨.Span (a, true) (b, true), ?_, by rw [allIn]; exact h⟩
      rw [simplify_shallow]
      · simp
      · simp
  | Single v =>
    refine ⟨.Single v, ?_, h⟩
    rw [simplify_shallow]
    · simp
    · simp
  | Complement c =>
    refine ⟨.Complement c, ?_, h⟩
    rw [simplify_shallow]
    · simp
    · simp
  | Order cs =>
    refine ⟨.Order cs, ?_, h⟩
    rw [simplify_shallow]
    · simp
    · simp
  | Bond cs =>
    refine ⟨.Bond cs, ?_, h⟩
    rw [simplify_shallow]
    · simp
    · simp
  | OneOf cs =>
    refine ⟨.OneOf cs, ?_, h⟩
    rw [simplify_shallow]
    · simp
    · simp
  | Between a b => rw [allIn] at h; exact h.elim
  | External n c => rw [allIn] at h; exact h.elim
  | Gap l => rw [allIn] at h; exact h.elim

theorem sst_allIn {s e : Int} {p : Position} (h : allIn s e p) :
    allIn s e (simplify_shallow_unwrap p) := by
  rcases shallow_allIn h with ⟨q, hq, hall⟩
  rw [simplify_shallow_unwrap, hq]
  exact hall

theorem truncate_allIn {s e : Int} (hse : s < e) :
    ∀ p : Position, begFree p = true →
      ∀ q, p.truncate s e = some q → allIn s e q := by
  intro p
  induction p using position_induction
    (Q := fun l => begFreeList l = true →
      allInList s e (truncate_filter l s e)) with
  | h1 v =>
    intro _ q hq
    rw [Position.truncate] at hq
    split at hq
    · cases hq
      rw [allIn]
      assumption
    · cases hq
  | h2 a b =>
    intro hfree
    rw [begFree] at hfree
    cases hfree
  | h3 a bf b af =>
    intro _ q hq
    rw [Position.truncate] at hq
    split at hq
    · rename_i hA
      split at hq
      · rename_i hB
        cases hq
        exact sst_allIn (by rw [allIn]; exact ⟨hA, hB⟩)
      · cases hq
        exact sst_allIn (by rw [allIn]; exact ⟨hA, by omega, by omega⟩)
    · split at hq
      · rename_i hB
        cases hq
        exact sst_allIn (by rw [allIn]; exact ⟨⟨le_refl s, hse⟩, hB⟩)
      · split at hq
        · cases hq
          refine sst_allIn ?_
          rw [Position.simple_span, allIn]
          exact ⟨⟨le_refl s, hse⟩, by omega, by omega⟩
        · cases hq
  | h4 c ih =>
    intro hfree q hq
    rw [begFree] at hfree
    rw [Position.truncate] at hq
    rcases ho : c.truncate s e with _ | q'
    · rw [ho] at hq; cases hq
    · rw [ho] at hq
      simp only [Option.map_some'] at hq
      cases hq
      rw [allIn]
      exact ih hfree q' ho
  | h5 cs ih =>
    intro hfree q hq
    rw [begFree] at hfree
    rw [Position.truncate] at hq
    rcases htl : truncate_list cs s e with _ | v
    · rw [htl] at hq; cases hq
    · rw [htl] at hq
      simp only [Option.map_some'] at hq
      cases hq
      have hv : truncate_filter cs s e = v ∧ v ≠ [] := by
        rw [truncate_list] at htl
        rcases ht : truncate_filter cs s e with _ | ⟨x, rest⟩ <;> rw [ht] at htl
        · cases htl
        · cases htl; exact ⟨rfl, by simp⟩
      refine sst_allIn ?_
      rw [allIn]
      refine ⟨hv.2, ?_⟩
      rw [← hv.1]
      exact ih hfree
  | h6 cs ih =>
    intro hfree q hq
    rw [begFree] at hfree
    rw [Position.truncate] at hq
    rcases htl : truncate_list cs s e with _ | v
    · rw [htl] at hq; cases hq
    · rw [htl] at hq
      simp only [Option.map_some'] at hq
      cases hq
      have hv : truncate_filter cs s e = v ∧ v ≠ [] := by
        rw [truncate_list] at htl
        rcases ht : truncate_filter cs s e with _ | ⟨x, rest⟩ <;> rw [ht] at htl
        · cases htl
        · cases htl; exact ⟨rfl, by simp⟩
      rw [allIn]
      refine ⟨hv.2, ?_⟩
      rw [← hv.1]
      exact ih hfree
  | h7 cs ih =>
    intro hfree q hq
    rw [begFree] at hfree
    rw [Position.truncate] at hq
    rcases htl : truncate_list cs s e with _ | v
    · rw [htl] at hq; cases hq
    · rw [htl] at hq
      simp only [Option.map_some'] at hq
      cases hq
      have hv : truncate_filter cs s e = v ∧ v ≠ [] := by
        rw [truncate_list] at htl
        rcases ht : truncate_filter cs s e with _ | ⟨x, rest⟩ <;> rw [ht] at htl
        · cases htl
        · cases htl; exact ⟨rfl, by simp⟩
      rw [allIn]
      refine ⟨hv.2, ?_⟩
      rw [← hv.1]
      exact ih hfree
  | h8 cs ih =>
    intro hfree q hq
    rw [begFree] at hfree
    rw [Position.truncate] at hq
    rcases htl : truncate_list cs s e with _ | v
    · rw [htl] at hq; cases hq
    · rw [htl] at hq
      simp only [Option.map_some'] at hq
      cases hq
      have hv : truncate_filter cs s e = v ∧ v ≠ [] := by
        rw [truncate_list] at htl
        rcases ht : truncate_filter cs s e with _ | ⟨x, rest⟩ <;> rw [ht] at htl
        · cases htl
        · cases htl; exact ⟨rfl, by simp⟩
      rw [allIn]
      refine ⟨hv.2, ?_⟩
      rw [← hv.1]
      exact ih hfree
  | h9 n c =>
    intro hfree
    rw [begFree] at hfree
    cases hfree
  | h10 l =>
    intro hfree
    rw [begFree] at hfree
    cases hfree
  | hnil =>
    rename_i hfree
    rw [truncate_filter, allInList]
    trivial
  | hcons p ps ihp ihps =>
    rename_i hfree
    rw [begFreeList, Bool.and_eq_true] at hfree
    rw [truncate_filter]
    rcases ht : p.truncate s e with _ | q
    · exact ihps hfree.2
    · rw [allInList]
      exact ⟨ihp hfree.1 q ht, ihps hfree.2⟩

/-- C1 (amended): for every position containing no `Between`, `External` or
`Gap` node and every window `[a, b)` with `a < b`, `truncate` either returns
`none` or a position whose `find_bounds` succeeds with bounds inside
`[a, b)`. -/
theorem C1_truncate_containment (p : Position) (a b : Int)
    (hfree : begFree p = true) (hab : a < b) :
    ∀ q, p.truncate a b = some q →
      ∃ lo hi, q.find_bounds = .ok (lo, hi) ∧ a ≤ lo ∧ hi < b :=
  fun q hq => allIn_bounds q (truncate_allIn hab p hfree q hq)

theorem C1_truncate_containment_witness :
    begFree (Position.Join [.Single 2, Position.simple_span 4 6]) = true ∧
    (0:Int) < 10 ∧
    (Position.Join [.Single 2, Position.simple_span 4 6]).truncate 0 10 =
      some (Position.Join [.Single 2, Position.simple_span 4 6]) ∧
    (∃ lo hi,
      (Position.Join [.Single 2, Position.simple_span 4 6]).find_bounds =
        .ok (lo, hi) ∧ 0 ≤ lo ∧ hi < 10) :=
  ⟨by simp [begFree, begFreeList, Position.simple_span], by norm_num,
    by simp [Position.truncate, truncate_list, truncate_filter,
      Position.simple_span, simplify_shallow_unwrap, simplify_shallow,
      flatten_join, merge_adjacent, collapse_span],
    C1_truncate_containment (Position.Join [.Single 2, Position.simple_span 4 6])
      0 10 (by simp [begFree, begFreeList, Position.simple_span]) (by norm_num)
      (Position.Join [.Single 2, Position.simple_span 4 6])
      (by simp [Position.truncate, truncate_list, truncate_filter,
        Position.simple_span, simplify_shallow_unwrap, simplify_shallow,
        flatten_join, merge_adjacent, collapse_span])⟩

theorem normShift_eq {len j : Int} (hlen : 0 < len) (hj0 : 0 < j)
    (hjl : j < len) : reduceSub len (addWhileNeg len (-j)) = len - j := by
  rw [addWhileNeg, if_pos ⟨hlen, by omega⟩]
  rw [addWhileNeg, if_neg (by omega)]
  rw [reduceSub, if_neg (by omega)]
  omega

theorem r2_noop {len x y : Int} (h : ¬(0 < len ∧ len ≤ x)) :
    reduceSub2 len x y = (x, y) := by
  rw [reduceSub2, if_neg h]

theorem r2_once {len x y : Int} (hlen : 0 < len) (hx : len ≤ x)
    (hx2 : x - len < len) : reduceSub2 len x y = (x - len, y - len) := by
  rw [reduceSub2, if_pos ⟨hlen, hx⟩, reduceSub2, if_neg (by omega)]

theorem ws_noop {len x y : Int} (bf af : Bool) (h : ¬(0 < len ∧ len ≤ y)) :
    wrapSpan len x bf y af = .Span (x, bf) (y, af) := by
  rw [wrapSpan, if_neg h]

theorem ws_once {len x y : Int} (bf af : Bool) (hlen : 0 < len)
    (hy : len ≤ y) (hy2 : y - len < len) :
    wrapSpan len x bf y af =
      .Join [.Span (x, bf) (len - 1, false), .Span (0, false) (y - len, af)] := by
  rw [wrapSpan, if_pos ⟨hlen, hy⟩, wrapSpan, if_neg (by omega)]

theorem simplify_eq_impl {p q : Position} (h : simplify_shallow p = .ok q) :
    simplify p = simplifyImpl q := by
  unfold simplify
  rw [h]

theorem simplify_span_ne {x y : Int} (h : x ≠ y) :
    simplify (.Span (x, false) (y, false)) = .ok (.Span (x, false) (y, false)) := by
  rw [simplify_eq_impl (by rw [simplify_shallow, if_neg h])]
  rw [simplifyImpl]

theorem simplify_span_deg (x : Int) :
    simplify (.Span (x, false) (x, false)) = .ok (.Single x) := by
  rw [simplify_eq_impl (by rw [simplify_shallow, if_pos rfl])]
  rw [simplifyImpl]

theorem simplifyImpl_collapse_span (x u : Int) (bf af : Bool) :
    simplifyImpl (collapse_span (.Span (x, bf) (u, af))) =
      .ok (collapse_span (.Span (x, bf) (u, af))) := by
  cases bf <;> cases af <;> simp only [collapse_span]
  case false.false => split <;> rw [simplifyImpl]
  all_goals rw [simplifyImpl]

theorem simplifyList_cons {p d q : Position} {ps l : List Position}
    (h : simplify_shallow p = .ok d) (hi : simplifyImpl d = .ok q)
    (hl : simplifyList ps = .ok l) :
    simplifyList (p :: ps) = .ok (q :: l) := by
  rw [simplifyList]
  split
  · rename_i e heq; rw [h] at heq; cases heq
  · rename_i d' heq
    rw [h] at heq
    cases heq
    simp only [hi, hl]

theorem simplify_join2 {x u v y : Int} (hne : u + 1 ≠ v) :
    simplify (.Join [.Span (x, false) (u, false), .Span (v, false) (y, false)]) =
      .ok (.Join [collapse_span (.Span (x, false) (u, false)),
        collapse_span (.Span (v, false) (y, false))]) := by
  have hfm : merge_adjacent (flatten_join
      [Position.Span (x, false) (u, false), .Span (v, false) (y, false)]) =
      [Position.Span (x, false) (u, false), .Span (v, false) (y, false)] := by
    have hf : flatten_join
        [Position.Span (x, false) (u, false), .Span (v, false) (y, false)] =
        [Position.Span (x, false) (u, false), .Span (v, false) (y, false)] := by
      simp [flatten_join]
    rw [hf, merge_adjacent, if_neg hne]
    rw [merge_adjacent]
  have hsh : simplify_shallow (.Join
      [Position.Span (x, false) (u, false), .Span (v, false) (y, false)]) =
      .ok (.Join [Position.Span (x, false) (u, false),
        .Span (v, false) (y, false)]) := by
    rw [simplify_shallow, if_neg (by simp), hfm]
  rw [simplify_eq_impl hsh, simplifyImpl]
  rw [simplifyList_cons (simplify_shallow_nonjoin (by simp))
    (simplifyImpl_collapse_span x u false false)
    (simplifyList_cons (simplify_shallow_nonjoin (by simp))
      (simplifyImpl_collapse_span v y false false) (by rw [simplifyList]))]

theorem simplify_join2_merge {x u v y : Int} (huv : u + 1 = v)
    (hxu : x ≤ u) (hvy : v ≤ y) (hxy : x ≠ y) :
    simplify (.Join [collapse_span (.Span (x, false) (u, false)),
      collapse_span (.Span (v, false) (y, false))]) =
      .ok (.Span (x, false) (y, false)) := by
  have himpl : simplifyImpl (.Span ((x : Int), false) ((y : Int), false)) =
      .ok (.Span (x, false) (y, false)) := by rw [simplifyImpl]
  have hshspan : simplify_shallow (.Span ((x : Int), false) ((y : Int), false)) =
      .ok (.Span (x, false) (y, false)) := by
    rw [simplify_shallow, if_neg hxy]
  by_cases h1 : x = u <;> by_cases h2 : v = y
  · subst h1; subst h2
    rw [collapse_span, if_pos rfl, collapse_span, if_pos rfl]
    have hfm : merge_adjacent (flatten_join
        [Position.Single x, Position.Single v]) =
        [Position.simple_span x v] := by
      have hf : flatten_join [Position.Single x, Position.Single v] =
          [Position.Single x, Position.Single v] := by simp [flatten_join]
      rw [hf, merge_adjacent, if_pos huv, merge_adjacent]
    have hsh : simplify_shallow (.Join [Position.Single x, Position.Single v]) =
        .ok (.Span (x, false) (v, false)) := by
      rw [simplify_shallow, if_neg (by simp), hfm]
      exact congrArg Except.ok (by
        rw [Position.simple_span, collapse_span, if_neg (by omega)])
    rw [simplify_eq_impl hsh]
    rw [simplifyImpl]
  · subst h1
    rw [collapse_span, if_pos rfl, collapse_span, if_neg h2]
    have hfm : merge_adjacent (flatten_join
        [Position.Single x, Position.Span (v, false) (y, false)]) =
        [Position.Span (x, false) (y, false)] := by
      have hf : flatten_join
          [Position.Single x, Position.Span (v, false) (y, false)] =
          [Position.Single x, Position.Span (v, false) (y, false)] := by
        simp [flatten_join]
      rw [hf, merge_adjacent, if_pos huv, merge_adjacent]
    have hsh : simplify_shallow (.Join
        [Position.Single x, Position.Span (v, false) (y, false)]) =
        .ok (.Span (x, false) (y, false)) := by
      rw [simplify_shallow, if_neg (by simp), hfm]
      exact congrArg Except.ok (by rw [collapse_span, if_neg hxy])
    rw [simplify_eq_impl hsh, himpl]
  · subst h2
    rw [collapse_span, if_neg h1, collapse_span, if_pos rfl]
    have hfm : merge_adjacent (flatten_join
        [Position.Span (x, false) (u, false), Position.Single v]) =
        [Position.Span (x, false) (v, false)] := by
      have hf : flatten_join
          [Position.Span (x, false) (u, false), Position.Single v] =
          [Position.Span (x, false) (u, false), Position.Single v] := by
        simp [flatten_join]
      rw [hf, merge_adjacent, if_pos huv, merge_adjacent]
    have hsh : simplify_shallow (.Join
        [Position.Span (x, false) (u, false), Position.Single v]) =
        .ok (.Span (x, false) (v, false)) := by
      rw [simplify_shallow, if_neg (by simp), hfm]
      exact congrArg Except.ok (by rw [collapse_span, if_neg hxy])
    rw [simplify_eq_impl hsh, himpl]
  · rw [collapse_span, if_neg h1, collapse_span, if_neg h2]
    have hfm : merge_adjacent (flatten_join
        [Position.Span (x, false) (u, false),
          Position.Span (v, false) (y, false)]) =
        [Position.Span (x, false) (y, false)] := by
      have hf : flatten_join
          [Position.Span (x, false) (u, false),
            Position.Span (v, false) (y, false)] =
          [Position.Span (x, false) (u, false),
            Position.Span (v, false) (y, false)] := by
        simp [flatten_join]
      rw [hf, merge_adjacent, if_pos huv, merge_adjacent]
    have hsh : simplify_shallow (.Join
        [Position.Span (x, false) (u, false),
          Position.Span (v, false) (y, false)]) =
        .ok (.Span (x, false) (y, false)) := by
      rw [simplify_shallow, if_neg (by simp), hfm]
      exact congrArg Except.ok (by rw [collapse_span, if_neg hxy])
    rw [simplify_eq_impl hsh, himpl]

theorem mapVal_add_collapse (k x u : Int) :
    mapVal (fun v => v + k) (collapse_span (.Span (x, false) (u, false))) =
      collapse_span (.Span (x + k, false) (u + k, false)) := by
  by_cases h : x = u
  · subst h
    rw [collapse_span, if_pos rfl, collapse_span, if_pos rfl, mapVal]
  · rw [collapse_span, if_neg h, collapse_span, if_neg (by omega), mapVal]

/-- On a circular sequence `relocate_position` is the shift-normalised
coordinate map followed by `wrap_position`. -/
theorem relocate_circular_eq (s : Seq) (htop : s.is_circular = true)
    (p : Position) (j : Int) :
    s.relocate_position p j = s.wrap_position
      (mapVal (fun v => v + reduceSub s.len (addWhileNeg s.len j)) p) := by
  rw [Seq.relocate_position, if_pos htop]

/-- The wrap traversal pulls a collapsed span living exactly one turn above
the window back into it. -/
theorem wrapAll_collapse_high {len a u : Int} (hlen : 0 < len)
    (ha : 0 ≤ a) (hal : a < len) (hu : len ≤ u) (hul : u - len < len) :
    wrapAll len (collapse_span (.Span (a + len, false) (u, false))) =
      collapse_span (.Span (a, false) (u - len, false)) := by
  by_cases h : a + len = u
  · rw [collapse_span, if_pos h, wrapAll]
    rw [reduceSub, if_pos ⟨hlen, by omega⟩, reduceSub, if_neg (by omega)]
    rw [collapse_span, if_pos (show a = u - len by omega)]
    congr 1
    omega
  · rw [collapse_span, if_neg h, wrapAll]
    rw [r2_once hlen (by omega) (by omega)]
    show wrapSpan len (a + len - len) false (u - len) false = _
    have e : a + len - len = a := by omega
    rw [e, ws_noop false false (by omega), collapse_span, if_neg (by omega)]

/-- The wrap traversal leaves a collapsed in-window span unchanged. -/
theorem wrapAll_collapse_low {len v y : Int} (hlen : 0 < len)
    (hv : 0 ≤ v) (hy : v ≤ y) (hyl : y < len) :
    wrapAll len (collapse_span (.Span (v, false) (y, false))) =
      collapse_span (.Span (v, false) (y, false)) := by
  by_cases h : v = y
  · rw [collapse_span, if_pos h, wrapAll, reduceSub, if_neg (by omega)]
  · rw [collapse_span, if_neg h, wrapAll, r2_noop (by omega)]
    show wrapSpan len v false y false = _
    rw [ws_noop false false (by omega)]

/-- One full rotation cycle on a proper in-range span: relocating by `-i`
succeeds, and relocating the result by `-(len - i)` restores the span
exactly.  The intermediate position is either the shifted span or, when the
span straddles the new origin, the two-piece `Join` produced by the wrap. -/
theorem relocate_span_roundtrip (s : Seq) (htop : s.is_circular = true)
    (i a b : Int) (hi0 : 0 < i) (hil : i < s.len) (ha : 0 ≤ a)
    (hab : a < b) (hb : b < s.len) :
    ∃ r, s.relocate_position (.Span (a, false) (b, false)) (-i) = .ok r ∧
      s.relocate_position r (-(s.len - i)) =
        .ok (.Span (a, false) (b, false)) := by
  have hlen : 0 < s.len := by omega
  have hsh2 : reduceSub s.len (addWhileNeg s.len (-(s.len - i))) =
      s.len - (s.len - i) := normShift_eq hlen (by omega) (by omega)
  by_cases hA : i ≤ a
  · -- the whole span sits at or after the cut: shifted down in round 1,
    -- shifted back up (mod len) in round 2.
    refine ⟨.Span (a - i, false) (b - i, false), ?_, ?_⟩
    · rw [relocate_circular_eq s htop _ (-i)]
      simp only [normShift_eq hlen hi0 hil, mapVal]
      rw [Seq.wrap_position, wrapAll]
      rw [r2_once hlen (by omega) (by omega)]
      show simplify (wrapSpan s.len (a + (s.len - i) - s.len) false
        (b + (s.len - i) - s.len) false) = _
      have e1 : a + (s.len - i) - s.len = a - i := by omega
      have e2 : b + (s.len - i) - s.len = b - i := by omega
      rw [e1, e2, ws_noop false false (by omega)]
      exact simplify_span_ne (by omega)
    · rw [relocate_circular_eq s htop _ (-(s.len - i))]
      simp only [hsh2, mapVal]
      have e1 : a - i + (s.len - (s.len - i)) = a := by omega
      have e2 : b - i + (s.len - (s.len - i)) = b := by omega
      rw [e1, e2, Seq.wrap_position, wrapAll, r2_noop (by omega)]
      show simplify (wrapSpan s.len a false b false) = _
      rw [ws_noop false false (by omega)]
      exact simplify_span_ne (by omega)
  · by_cases hB : b < i
    · -- the whole span sits before the cut: shifted up in round 1,
      -- reduced once in round 2.
      refine ⟨.Span (a + s.len - i, false) (b + s.len - i, false), ?_, ?_⟩
      · rw [relocate_circular_eq s htop _ (-i)]
        simp only [normShift_eq hlen hi0 hil, mapVal]
        rw [Seq.wrap_position, wrapAll, r2_noop (by omega)]
        show simplify (wrapSpan s.len (a + (s.len - i)) false
          (b + (s.len - i)) false) = _
        have e1 : a + (s.len - i) = a + s.len - i := by omega
        have e2 : b + (s.len - i) = b + s.len - i := by omega
        rw [e1, e2, ws_noop false false (by omega)]
        exact simplify_span_ne (by omega)
      · rw [relocate_circular_eq s htop _ (-(s.len - i))]
        simp only [hsh2, mapVal]
        have e1 : a + s.len - i + (s.len - (s.len - i)) = a + s.len := by omega
        have e2 : b + s.len - i + (s.len - (s.len - i)) = b + s.len := by omega
        rw [e1, e2, Seq.wrap_position, wrapAll]
        rw [r2_once hlen (by omega) (by omega)]
        show simplify (wrapSpan s.len (a + s.len - s.len) false
          (b + s.len - s.len) false) = _
        have e3 : a + s.len - s.len = a := by omega
        have e4 : b + s.len - s.len = b := by omega
        rw [e3, e4, ws_noop false false (by omega)]
        exact simplify_span_ne (by omega)
    · -- the span straddles the cut: round 1 splits it at the origin,
      -- round 2 shifts both pieces back and re-merges them.
      refine ⟨.Join
        [collapse_span (.Span (a + s.len - i, false) (s.len - 1, false)),
          collapse_span (.Span (0, false) (b - i, false))], ?_, ?_⟩
      · rw [relocate_circular_eq s htop _ (-i)]
        simp only [normShift_eq hlen hi0 hil, mapVal]
        rw [Seq.wrap_position, wrapAll, r2_noop (by omega)]
        show simplify (wrapSpan s.len (a + (s.len - i)) false
          (b + (s.len - i)) false) = _
        have e1 : a + (s.len - i) = a + s.len - i := by omega
        have e2 : b + (s.len - i) = b + s.len - i := by omega
        rw [e1, e2, ws_once false false hlen (by omega) (by omega)]
        have e3 : b + s.len - i - s.len = b - i := by omega
        rw [e3]
        exact simplify_join2 (by omega)
      · rw [relocate_circular_eq s htop _ (-(s.len - i))]
        simp only [hsh2, mapVal, mapValList]
        rw [mapVal_add_collapse, mapVal_add_collapse]
        have e1 : a + s.len - i + (s.len - (s.len - i)) = a + s.len := by omega
        have e2 : s.len - 1 + (s.len - (s.len - i)) = s.len - 1 + i := by omega
        have e3 : (0 : Int) + (s.len - (s.len - i)) = i := by omega
        have e4 : b - i + (s.len - (s.len - i)) = b := by omega
        rw [e1, e2, e3, e4, Seq.wrap_position, wrapAll]
        simp only [wrapAllList]
        rw [wrapAll_collapse_high hlen ha (by omega) (by omega) (by omega)]
        rw [wrapAll_collapse_low hlen (by omega) (by omega) hb]
        have e5 : s.len - 1 + i - s.len = i - 1 := by omega
        rw [e5]
        exact simplify_join2_merge (by omega) (by omega) (by omega) (by omega)

/-- Unfolding of two successive `set_origin`s on the feature list.  The
inner rotation changes neither the topology nor the length, so both
relocation passes read the original sequence's geometry. -/
theorem set_origin_set_origin_features (s : Seq) (o1 o2 : Int) :
    ((s.set_origin o1).set_origin o2).features =
      (s.features.filterMap
        (fun f => (s.relocate_feature f (-o1)).toOption)).filterMap
        (fun f => (s.relocate_feature f (-o2)).toOption) := rfl

theorem rs_noop {len x : Int} (h : ¬(0 < len ∧ len ≤ x)) :
    reduceSub len x = x := by
  rw [reduceSub, if_neg h]

theorem rs_once {len x : Int} (hlen : 0 < len) (hx : len ≤ x)
    (hx2 : x - len < len) : reduceSub len x = x - len := by
  rw [reduceSub, if_pos ⟨hlen, hx⟩, reduceSub, if_neg (by omega)]

/-- `collapse_span` keeps any span that is fuzzy on either side or has
distinct endpoints. -/
theorem collapse_keep {x u : Int} {bf af : Bool}
    (h : ¬(bf = false ∧ af = false ∧ x = u)) :
    collapse_span (.Span (x, bf) (u, af)) = .Span (x, bf) (u, af) := by
  cases bf <;> cases af <;> first
    | rfl
    | rw [collapse_span, if_neg (fun he => h ⟨rfl, rfl, he⟩)]

theorem simplify_single (v : Int) : simplify (.Single v) = .ok (.Single v) := by
  rw [simplify_eq_impl
    (show simplify_shallow (.Single v) = .ok (.Single v) from rfl)]
  rw [simplifyImpl]

/-- `simplify` keeps a span with distinct endpoints, whatever its flags. -/
theorem simplify_span_keep {x y : Int} (bf af : Bool) (h : x ≠ y) :
    simplify (.Span (x, bf) (y, af)) = .ok (.Span (x, bf) (y, af)) := by
  cases bf <;> cases af
  case false.false => exact simplify_span_ne h
  case false.true =>
    rw [simplify_eq_impl (show simplify_shallow (.Span (x, false) (y, true)) =
      .ok (.Span (x, false) (y, true)) from rfl), simplifyImpl]
  case true.false =>
    rw [simplify_eq_impl (show simplify_shallow (.Span (x, true) (y, false)) =
      .ok (.Span (x, true) (y, false)) from rfl), simplifyImpl]
  case true.true =>
    rw [simplify_eq_impl (show simplify_shallow (.Span (x, true) (y, true)) =
      .ok (.Span (x, true) (y, true)) from rfl), simplifyImpl]

theorem fl_nil : flatten_join [] = [] := by
  rw [flatten_join]

theorem fl_single (x : Int) (rest : List Position) :
    flatten_join (.Single x :: rest) = .Single x :: flatten_join rest := by
  rw [flatten_join]
  intro ys h
  cases h

theorem fl_span (p q : Int × Bool) (rest : List Position) :
    flatten_join (.Span p q :: rest) = .Span p q :: flatten_join rest := by
  rw [flatten_join]
  intro ys h
  cases h

theorem fl_join (xs rest : List Position) :
    flatten_join (.Join xs :: rest) =
      flatten_join xs ++ flatten_join rest := by
  rw [flatten_join]

theorem fl_cs (x u : Int) (bf af : Bool) (rest : List Position) :
    flatten_join (collapse_span (.Span (x, bf) (u, af)) :: rest) =
      collapse_span (.Span (x, bf) (u, af)) :: flatten_join rest := by
  by_cases hc : bf = false ∧ af = false ∧ x = u
  · obtain ⟨h1, h2, h3⟩ := hc
    subst h1; subst h2
    rw [collapse_span, if_pos h3]
    exact fl_single x rest
  · rw [collapse_keep hc]
    exact fl_span (x, bf) (u, af) rest

theorem ma_one (p : Position) : merge_adjacent [p] = [p] := by
  rw [merge_adjacent]

/-- Two plain spans with non-contiguous sharp facing edges are not merged:
the head is emitted and the scan continues. -/
theorem ma_sp_sp_push {x u v y : Int} (bf af : Bool) (rest : List Position)
    (h : ¬ u + 1 = v) :
    merge_adjacent
        (.Span (x, bf) (u, false) :: .Span (v, false) (y, af) :: rest) =
      .Span (x, bf) (u, false) ::
        merge_adjacent (.Span (v, false) (y, af) :: rest) := by
  rw [merge_adjacent, if_neg h]

/-- Two plain spans with contiguous sharp facing edges are coalesced. -/
theorem ma_sp_sp_merge {x u v y : Int} (bf af : Bool) (rest : List Position)
    (h : u + 1 = v) :
    merge_adjacent
        (.Span (x, bf) (u, false) :: .Span (v, false) (y, af) :: rest) =
      merge_adjacent (.Span (x, bf) (y, af) :: rest) := by
  rw [merge_adjacent, if_pos h]

/-- Like `ma_sp_sp_merge` with a collapsed piece on the left: a collapsed
degenerate span is a `Single`, and the `Single`/`Span` arm performs the same
coalescing. -/
theorem ma_cs_sp_merge {x u v y : Int} (bf af : Bool) (rest : List Position)
    (h : u + 1 = v) :
    merge_adjacent (collapse_span (.Span (x, bf) (u, false)) ::
        .Span (v, false) (y, af) :: rest) =
      merge_adjacent (.Span (x, bf) (y, af) :: rest) := by
  cases bf
  · by_cases hxu : x = u
    · rw [collapse_span, if_pos hxu, merge_adjacent, if_pos (by omega)]
    · rw [collapse_span, if_neg hxu, merge_adjacent, if_pos h]
  · rw [show collapse_span (.Span (x, true) (u, false)) =
      .Span (x, true) (u, false) from rfl, merge_adjacent, if_pos h]

/-- Like `ma_sp_sp_merge` with a collapsed piece on the right. -/
theorem ma_sp_cs_merge {x u v y : Int} (bf af : Bool) (rest : List Position)
    (h : u + 1 = v) :
    merge_adjacent (.Span (x, bf) (u, false) ::
        collapse_span (.Span (v, false) (y, af)) :: rest) =
      merge_adjacent (.Span (x, bf) (y, af) :: rest) := by
  cases af
  · by_cases hvy : v = y
    · rw [collapse_span, if_pos hvy, merge_adjacent, if_pos h, hvy]
    · rw [collapse_span, if_neg hvy, merge_adjacent, if_pos h]
  · rw [show collapse_span (.Span (v, false) (y, true)) =
      .Span (v, false) (y, true) from rfl, merge_adjacent, if_pos h]

/-- Like `ma_sp_sp_merge` with collapsed pieces on both sides. -/
theorem ma_cs_cs_merge {x u v y : Int} (bf af : Bool) (rest : List Position)
    (h : u + 1 = v) :
    merge_adjacent (collapse_span (.Span (x, bf) (u, false)) ::
        collapse_span (.Span (v, false) (y, af)) :: rest) =
      merge_adjacent (.Span (x, bf) (y, af) :: rest) := by
  cases bf
  · by_cases hxu : x = u
    · rw [collapse_span, if_pos hxu]
      cases af
      · by_cases hvy : v = y
        · rw [collapse_span, if_pos hvy, merge_adjacent, if_pos (by omega),
            Position.simple_span, hvy]
        · rw [collapse_span, if_neg hvy, merge_adjacent, if_pos (by omega)]
      · rw [show collapse_span (.Span (v, false) (y, true)) =
          .Span (v, false) (y, true) from rfl, merge_adjacent,
          if_pos (by omega)]
    · rw [collapse_span, if_neg hxu]
      exact ma_sp_cs_merge false af rest h
  · rw [show collapse_span (.Span (x, true) (u, false)) =
      .Span (x, true) (u, false) from rfl]
    exact ma_sp_cs_merge true af rest h

/-- `simplify` on a `Join` whose flattening merges to a single span: the
`Join` disappears and the shallow pass collapses the remaining span. -/
theorem simplify_join_one {l : List Position} {x u : Int} {bf af : Bool}
    (hm : merge_adjacent (flatten_join l) = [.Span (x, bf) (u, af)]) :
    simplify (.Join l) = .ok (collapse_span (.Span (x, bf) (u, af))) := by
  have hne : l.isEmpty = false := by
    cases l with
    | nil => rw [flatten_join, merge_adjacent] at hm; cases hm
    | cons a as => rfl
  have hsh : simplify_shallow (.Join l) =
      .ok (collapse_span (.Span (x, bf) (u, af))) := by
    rw [simplify_shallow, if_neg (by simp [hne]), hm]
  rw [simplify_eq_impl hsh]
  exact simplifyImpl_collapse_span x u bf af

/-- `simplify` on a `Join` whose flattening merges to two spans: the `Join`
survives and each child span is collapsed by the recursive pass. -/
theorem simplify_join_two {l : List Position} {x1 u1 x2 u2 : Int}
    {b1 a1 b2 a2 : Bool}
    (hm : merge_adjacent (flatten_join l) =
      [.Span (x1, b1) (u1, a1), .Span (x2, b2) (u2, a2)]) :
    simplify (.Join l) =
      .ok (.Join [collapse_span (.Span (x1, b1) (u1, a1)),
        collapse_span (.Span (x2, b2) (u2, a2))]) := by
  have hne : l.isEmpty = false := by
    cases l with
    | nil => rw [flatten_join, merge_adjacent] at hm; cases hm
    | cons a as => rfl
  have hsh : simplify_shallow (.Join l) =
      .ok (.Join [.Span (x1, b1) (u1, a1), .Span (x2, b2) (u2, a2)]) := by
    rw [simplify_shallow, if_neg (by simp [hne]), hm]
  rw [simplify_eq_impl hsh, simplifyImpl]
  rw [simplifyList_cons (simplify_shallow_nonjoin (by simp))
    (simplifyImpl_collapse_span x1 u1 b1 a1)
    (simplifyList_cons (simplify_shallow_nonjoin (by simp))
      (simplifyImpl_collapse_span x2 u2 b2 a2) (by rw [simplifyList]))]

/-- `simplify` on a `Join` whose flattening merges to three spans. -/
theorem simplify_join_three {l : List Position} {x1 u1 x2 u2 x3 u3 : Int}
    {b1 a1 b2 a2 b3 a3 : Bool}
    (hm : merge_adjacent (flatten_join l) =
      [.Span (x1, b1) (u1, a1), .Span (x2, b2) (u2, a2),
        .Span (x3, b3) (u3, a3)]) :
    simplify (.Join l) =
      .ok (.Join [collapse_span (.Span (x1, b1) (u1, a1)),
        collapse_span (.Span (x2, b2) (u2, a2)),
        collapse_span (.Span (x3, b3) (u3, a3))]) := by
  have hne : l.isEmpty = false := by
    cases l with
    | nil => rw [flatten_join, merge_adjacent] at hm; cases hm
    | cons a as => rfl
  have hsh : simplify_shallow (.Join l) =
      .ok (.Join [.Span (x1, b1) (u1, a1), .Span (x2, b2) (u2, a2),
        .Span (x3, b3) (u3, a3)]) := by
    rw [simplify_shallow, if_neg (by simp [hne]), hm]
  rw [simplify_eq_impl hsh, simplifyImpl]
  rw [simplifyList_cons (simplify_shallow_nonjoin (by simp))
    (simplifyImpl_collapse_span x1 u1 b1 a1)
    (simplifyList_cons (simplify_shallow_nonjoin (by simp))
      (simplifyImpl_collapse_span x2 u2 b2 a2)
      (simplifyList_cons (simplify_shallow_nonjoin (by simp))
        (simplifyImpl_collapse_span x3 u3 b3 a3) (by rw [simplifyList])))]

/-- A coordinate shift distributes over a collapsed span piece. -/
theorem mapVal_add_collapse2 (k x u : Int) (bf af : Bool) :
    mapVal (fun v => v + k) (collapse_span (.Span (x, bf) (u, af))) =
      collapse_span (.Span (x + k, bf) (u + k, af)) := by
  by_cases hc : bf = false ∧ af = false ∧ x = u
  · obtain ⟨h1, h2, h3⟩ := hc
    subst h1; subst h2; subst h3
    rw [collapse_span, if_pos rfl, collapse_span, if_pos rfl, mapVal]
  · rw [collapse_keep hc, collapse_keep (fun h3 => hc ⟨h3.1, h3.2.1, by
      have := h3.2.2; omega⟩), mapVal]

/-- The wrap traversal pulls a collapsed piece living exactly one turn above
the window back into it (left edge keeps its flag, right edge is sharp). -/
theorem wrapAll_collapse_high2 {len a u : Int} (bf : Bool) (hlen : 0 < len)
    (ha : 0 ≤ a) (hal : a < len) (hu : len ≤ u) (hul : u - len < len) :
    wrapAll len (collapse_span (.Span (a + len, bf) (u, false))) =
      collapse_span (.Span (a, bf) (u - len, false)) := by
  by_cases hc : bf = false ∧ a + len = u
  · obtain ⟨h1, h2⟩ := hc
    subst h1
    rw [collapse_span, if_pos h2, wrapAll,
      rs_once hlen (by omega) (by omega),
      collapse_span, if_pos (show a = u - len by omega)]
    congr 1
    omega
  · rw [collapse_keep (fun h3 => hc ⟨h3.1, h3.2.2⟩), wrapAll,
      r2_once hlen (by omega) (by omega)]
    show wrapSpan len (a + len - len) bf (u - len) false = _
    have e : a + len - len = a := by omega
    rw [e, ws_noop bf false (by omega),
      collapse_keep (fun h3 => hc ⟨h3.1, by have := h3.2.2; omega⟩)]

/-- The wrap traversal leaves a collapsed in-window piece unchanged. -/
theorem wrapAll_collapse_low2 {len v y : Int} (af : Bool)
    (hv : v < len) (hy : y < len) :
    wrapAll len (collapse_span (.Span (v, false) (y, af))) =
      collapse_span (.Span (v, false) (y, af)) := by
  by_cases hc : af = false ∧ v = y
  · obtain ⟨h1, h2⟩ := hc
    subst h1
    rw [collapse_span, if_pos h2, wrapAll, rs_noop (by omega)]
  · rw [collapse_keep (fun h3 => hc ⟨h3.2.1, h3.2.2⟩), wrapAll,
      r2_noop (by omega)]
    show wrapSpan len v false y af = _
    rw [ws_noop false af (by omega)]

/-- The wrap traversal splits a collapsed piece whose left edge is inside
the window but whose right edge reaches past it; such a piece is never a
`Single` since its endpoints differ. -/
theorem wrapAll_collapse_split2 {len x u : Int} (bf af : Bool)
    (hlen : 0 < len) (hxl : x < len) (hu : len ≤ u) (hul : u - len < len) :
    wrapAll len (collapse_span (.Span (x, bf) (u, af))) =
      .Join [.Span (x, bf) (len - 1, false), .Span (0, false) (u - len, af)] := by
  rw [collapse_keep (fun h3 => absurd h3.2.2 (by omega)), wrapAll,
    r2_noop (by omega)]
  show wrapSpan len x bf u af = _
  rw [ws_once bf af hlen hu hul]

/-- `simplify` acts on a `Complement` by simplifying underneath it. -/
theorem simplify_complement_ok {x y : Position} (h : simplify x = .ok y) :
    simplify (.Complement x) = .ok (.Complement y) := by
  cases hx : simplify_shallow x with
  | error e =>
    rw [simplify, hx] at h
    have h2 : (Except.error e : Except PositionError Position) = .ok y := h
    cases h2
  | ok q =>
    rw [simplify, hx] at h
    have h2 : simplifyImpl q = .ok y := h
    rw [simplify_eq_impl (show simplify_shallow (.Complement x) =
      .ok (.Complement x) from rfl)]
    rw [simplifyImpl]
    split
    · rename_i e heq
      rw [hx] at heq
      cases heq
    · rename_i c1 heq
      rw [hx] at heq
      cases heq
      rw [h2]

/-- One full rotation cycle on any `RotSafe` position: relocating by `-i`
succeeds, and relocating the result by `-(len - i)` restores the position
exactly. -/
theorem rotsafe_roundtrip (s : Seq) (htop : s.is_circular = true)
    (i : Int) (hi0 : 0 < i) (hil : i < s.len) :
    ∀ p : Position, RotSafe s.len p →
      ∃ r, s.relocate_position p (-i) = .ok r ∧
        s.relocate_position r (-(s.len - i)) = .ok p := by
  have hlen : 0 < s.len := by omega
  have hsh1 : reduceSub s.len (addWhileNeg s.len (-i)) = s.len - i :=
    normShift_eq hlen hi0 hil
  have hsh2 : reduceSub s.len (addWhileNeg s.len (-(s.len - i))) =
      s.len - (s.len - i) := normShift_eq hlen (by omega) (by omega)
  intro p hp
  induction hp with
  | single v hv0 hvl =>
    by_cases hvi : i ≤ v
    · refine ⟨.Single (v - i), ?_, ?_⟩
      · rw [relocate_circular_eq s htop _ (-i)]
        simp only [hsh1, mapVal]
        rw [Seq.wrap_position, wrapAll, rs_once hlen (by omega) (by omega)]
        have e1 : v + (s.len - i) - s.len = v - i := by omega
        rw [e1]
        exact simplify_single _
      · rw [relocate_circular_eq s htop _ (-(s.len - i))]
        simp only [hsh2, mapVal]
        have e1 : v - i + (s.len - (s.len - i)) = v := by omega
        rw [e1, Seq.wrap_position, wrapAll, rs_noop (by omega)]
        exact simplify_single _
    · refine ⟨.Single (v + (s.len - i)), ?_, ?_⟩
      · rw [relocate_circular_eq s htop _ (-i)]
        simp only [hsh1, mapVal]
        rw [Seq.wrap_position, wrapAll, rs_noop (by omega)]
        exact simplify_single _
      · rw [relocate_circular_eq s htop _ (-(s.len - i))]
        simp only [hsh2, mapVal]
        have e1 : v + (s.len - i) + (s.len - (s.len - i)) = v + s.len := by
          omega
        rw [e1, Seq.wrap_position, wrapAll, rs_once hlen (by omega) (by omega)]
        have e2 : v + s.len - s.len = v := by omega
        rw [e2]
        exact simplify_single _
  | span a b bf af ha hab hb =>
    by_cases hA : i ≤ a
    · refine ⟨.Span (a - i, bf) (b - i, af), ?_, ?_⟩
      · rw [relocate_circular_eq s htop _ (-i)]
        simp only [hsh1, mapVal]
        rw [Seq.wrap_position, wrapAll, r2_once hlen (by omega) (by omega)]
        show simplify (wrapSpan s.len (a + (s.len - i) - s.len) bf
          (b + (s.len - i) - s.len) af) = _
        have e1 : a + (s.len - i) - s.len = a - i := by omega
        have e2 : b + (s.len - i) - s.len = b - i := by omega
        rw [e1, e2, ws_noop bf af (by omega)]
        exact simplify_span_keep bf af (by omega)
      · rw [relocate_circular_eq s htop _ (-(s.len - i))]
        simp only [hsh2, mapVal]
        have e1 : a - i + (s.len - (s.len - i)) = a := by omega
        have e2 : b - i + (s.len - (s.len - i)) = b := by omega
        rw [e1, e2, Seq.wrap_position, wrapAll, r2_noop (by omega)]
        show simplify (wrapSpan s.len a bf b af) = _
        rw [ws_noop bf af (by omega)]
        exact simplify_span_keep bf af (by omega)
    · by_cases hB : b < i
      · refine ⟨.Span (a + s.len - i, bf) (b + s.len - i, af), ?_, ?_⟩
        · rw [relocate_circular_eq s htop _ (-i)]
          simp only [hsh1, mapVal]
          rw [Seq.wrap_position, wrapAll, r2_noop (by omega)]
          show simplify (wrapSpan s.len (a + (s.len - i)) bf
            (b + (s.len - i)) af) = _
          have e1 : a + (s.len - i) = a + s.len - i := by omega
          have e2 : b + (s.len - i) = b + s.len - i := by omega
          rw [e1, e2, ws_noop bf af (by omega)]
          exact simplify_span_keep bf af (by omega)
        · rw [relocate_circular_eq s htop _ (-(s.len - i))]
          simp only [hsh2, mapVal]
          have e1 : a + s.len - i + (s.len - (s.len - i)) = a + s.len := by
            omega
          have e2 : b + s.len - i + (s.len - (s.len - i)) = b + s.len := by
            omega
          rw [e1, e2, Seq.wrap_position, wrapAll,
            r2_once hlen (by omega) (by omega)]
          show simplify (wrapSpan s.len (a + s.len - s.len) bf
            (b + s.len - s.len) af) = _
          have e3 : a + s.len - s.len = a := by omega
          have e4 : b + s.len - s.len = b := by omega
          rw [e3, e4, ws_noop bf af (by omega)]
          exact simplify_span_keep bf af (by omega)
      · refine ⟨.Join
          [collapse_span (.Span (a + s.len - i, bf) (s.len - 1, false)),
            collapse_span (.Span (0, false) (b - i, af))], ?_, ?_⟩
        · rw [relocate_circular_eq s htop _ (-i)]
          simp only [hsh1, mapVal]
          rw [Seq.wrap_position, wrapAll, r2_noop (by omega)]
          show simplify (wrapSpan s.len (a + (s.len - i)) bf
            (b + (s.len - i)) af) = _
          have e1 : a + (s.len - i) = a + s.len - i := by omega
          have e2 : b + (s.len - i) = b + s.len - i := by omega
          rw [e1, e2, ws_once bf af hlen (by omega) (by omega)]
          have e3 : b + s.len - i - s.len = b - i := by omega
          rw [e3]
          have hm : merge_adjacent (flatten_join
              [Position.Span (a + s.len - i, bf) (s.len - 1, false),
                .Span (0, false) (b - i, af)]) =
              [.Span (a + s.len - i, bf) (s.len - 1, false),
                .Span (0, false) (b - i, af)] := by
            rw [fl_span, fl_span, fl_nil]
            rw [ma_sp_sp_push bf af _ (by omega), ma_one]
          exact simplify_join_two hm
        · rw [relocate_circular_eq s htop _ (-(s.len - i))]
          simp only [hsh2, mapVal, mapValList]
          rw [mapVal_add_collapse2, mapVal_add_collapse2]
          have e1 : a + s.len - i + (s.len - (s.len - i)) = a + s.len := by
            omega
          have e2 : s.len - 1 + (s.len - (s.len - i)) = s.len - 1 + i := by
            omega
          have e3 : (0 : Int) + (s.len - (s.len - i)) = i := by omega
          have e4 : b - i + (s.len - (s.len - i)) = b := by omega
          rw [e1, e2, e3, e4, Seq.wrap_position, wrapAll]
          simp only [wrapAllList]
          rw [wrapAll_collapse_high2 bf hlen ha (by omega) (by omega)
            (by omega)]
          rw [wrapAll_collapse_low2 af (by omega) (by omega)]
          have e5 : s.len - 1 + i - s.len = i - 1 := by omega
          rw [e5]
          have hm : merge_adjacent (flatten_join
              [collapse_span (.Span (a, bf) (i - 1, false)),
                collapse_span (.Span (i, false) (b, af))]) =
              [.Span (a, bf) (b, af)] := by
            rw [fl_cs, fl_cs, fl_nil]
            rw [ma_cs_cs_merge bf af _ (by omega), ma_one]
          rw [simplify_join_one hm,
            collapse_keep (fun h3 => absurd h3.2.2 (by omega))]
  | cross c d bf af hc0 hcl hd0 hdl =>
    by_cases hci : i ≤ c
    · by_cases hdi : i ≤ d
      · -- both pieces shifted down one turn; round 1 re-splits the tail.
        refine ⟨.Join
          [collapse_span (.Span (c - i, bf) (s.len - 1, false)),
            collapse_span (.Span (0, false) (d - i, af))], ?_, ?_⟩
        · rw [relocate_circular_eq s htop _ (-i)]
          simp only [hsh1, mapVal, mapValList]
          rw [Seq.wrap_position, wrapAll]
          simp only [wrapAllList]
          simp only [wrapAll]
          rw [r2_once hlen (by omega) (by omega), r2_noop (by omega)]
          have e1 : c + (s.len - i) - s.len = c - i := by omega
          have e2 : s.len - 1 + (s.len - i) - s.len = s.len - i - 1 := by
            omega
          have e3 : (0 : Int) + (s.len - i) = s.len - i := by omega
          rw [e1, e2, e3]
          show simplify (.Join
            [wrapSpan s.len (c - i) bf (s.len - i - 1) false,
              wrapSpan s.len (s.len - i) false (d + (s.len - i)) af]) = _
          rw [ws_noop bf false (by omega),
            ws_once false af hlen (by omega) (by omega)]
          have e4 : d + (s.len - i) - s.len = d - i := by omega
          rw [e4]
          have hm : merge_adjacent (flatten_join
              [Position.Span (c - i, bf) (s.len - i - 1, false),
                .Join [.Span (s.len - i, false) (s.len - 1, false),
                  .Span (0, false) (d - i, af)]]) =
              [.Span (c - i, bf) (s.len - 1, false),
                .Span (0, false) (d - i, af)] := by
            rw [fl_span, fl_join, fl_span, fl_span, fl_nil, List.append_nil]
            rw [ma_sp_sp_merge bf false _ (by omega)]
            rw [ma_sp_sp_push bf af _ (by omega), ma_one]
          exact simplify_join_two hm
        · rw [relocate_circular_eq s htop _ (-(s.len - i))]
          simp only [hsh2, mapVal, mapValList]
          rw [mapVal_add_collapse2, mapVal_add_collapse2]
          have e1 : c - i + (s.len - (s.len - i)) = c := by omega
          have e2 : s.len - 1 + (s.len - (s.len - i)) = s.len - 1 + i := by
            omega
          have e3 : (0 : Int) + (s.len - (s.len - i)) = i := by omega
          have e4 : d - i + (s.len - (s.len - i)) = d := by omega
          rw [e1, e2, e3, e4, Seq.wrap_position, wrapAll]
          simp only [wrapAllList]
          rw [wrapAll_collapse_split2 bf false hlen (by omega) (by omega)
            (by omega)]
          rw [wrapAll_collapse_low2 af (by omega) (by omega)]
          have e5 : s.len - 1 + i - s.len = i - 1 := by omega
          rw [e5]
          have hm : merge_adjacent (flatten_join
              [Position.Join [.Span (c, bf) (s.len - 1, false),
                  .Span (0, false) (i - 1, false)],
                collapse_span (.Span (i, false) (d, af))]) =
              [.Span (c, bf) (s.len - 1, false),
                .Span (0, false) (d, af)] := by
            rw [fl_join, fl_span, fl_span, fl_nil, fl_cs, fl_nil]
            simp only [List.cons_append, List.nil_append, List.append_nil]
            rw [ma_sp_sp_push bf false _ (by omega)]
            rw [ma_sp_cs_merge false af _ (by omega), ma_one]
          rw [simplify_join_two hm,
            collapse_keep (fun h3 => absurd h3.2.2 (by omega)),
            collapse_keep (fun h3 => absurd h3.2.2 (by omega))]
      · -- head shifted down, tail stays short of the window end: the two
        -- pieces fuse into a single in-window span.
        refine ⟨.Span (c - i, bf) (d + (s.len - i), af), ?_, ?_⟩
        · rw [relocate_circular_eq s htop _ (-i)]
          simp only [hsh1, mapVal, mapValList]
          rw [Seq.wrap_position, wrapAll]
          simp only [wrapAllList]
          simp only [wrapAll]
          rw [r2_once hlen (by omega) (by omega), r2_noop (by omega)]
          have e1 : c + (s.len - i) - s.len = c - i := by omega
          have e2 : s.len - 1 + (s.len - i) - s.len = s.len - i - 1 := by
            omega
          have e3 : (0 : Int) + (s.len - i) = s.len - i := by omega
          rw [e1, e2, e3]
          show simplify (.Join
            [wrapSpan s.len (c - i) bf (s.len - i - 1) false,
              wrapSpan s.len (s.len - i) false (d + (s.len - i)) af]) = _
          rw [ws_noop bf false (by omega), ws_noop false af (by omega)]
          have hm : merge_adjacent (flatten_join
              [Position.Span (c - i, bf) (s.len - i - 1, false),
                .Span (s.len - i, false) (d + (s.len - i), af)]) =
              [.Span (c - i, bf) (d + (s.len - i), af)] := by
            rw [fl_span, fl_span, fl_nil]
            rw [ma_sp_sp_merge bf af _ (by omega), ma_one]
          rw [simplify_join_one hm,
            collapse_keep (fun h3 => absurd h3.2.2 (by omega))]
        · rw [relocate_circular_eq s htop _ (-(s.len - i))]
          simp only [hsh2, mapVal]
          have e1 : c - i + (s.len - (s.len - i)) = c := by omega
          have e2 : d + (s.len - i) + (s.len - (s.len - i)) = d + s.len := by
            omega
          rw [e1, e2, Seq.wrap_position, wrapAll, r2_noop (by omega)]
          show simplify (wrapSpan s.len c bf (d + s.len) af) = _
          rw [ws_once bf af hlen (by omega) (by omega)]
          have e3 : d + s.len - s.len = d := by omega
          rw [e3]
          have hm : merge_adjacent (flatten_join
              [Position.Span (c, bf) (s.len - 1, false),
                .Span (0, false) (d, af)]) =
              [.Span (c, bf) (s.len - 1, false),
                .Span (0, false) (d, af)] := by
            rw [fl_span, fl_span, fl_nil]
            rw [ma_sp_sp_push bf af _ (by omega), ma_one]
          rw [simplify_join_two hm,
            collapse_keep (fun h3 => absurd h3.2.2 (by omega)),
            collapse_keep (fun h3 => absurd h3.2.2 (by omega))]
    · by_cases hdi : i ≤ d
      · -- head splits, tail splits: four pieces merge back to three.
        refine ⟨.Join
          [collapse_span (.Span (c + (s.len - i), bf) (s.len - 1, false)),
            collapse_span (.Span (0, false) (s.len - 1, false)),
            collapse_span (.Span (0, false) (d - i, af))], ?_, ?_⟩
        · rw [relocate_circular_eq s htop _ (-i)]
          simp only [hsh1, mapVal, mapValList]
          rw [Seq.wrap_position, wrapAll]
          simp only [wrapAllList]
          simp only [wrapAll]
          rw [r2_noop (by omega), r2_noop (by omega)]
          have e3 : (0 : Int) + (s.len - i) = s.len - i := by omega
          rw [e3]
          show simplify (.Join
            [wrapSpan s.len (c + (s.len - i)) bf
              (s.len - 1 + (s.len - i)) false,
              wrapSpan s.len (s.len - i) false (d + (s.len - i)) af]) = _
          rw [ws_once bf false hlen (by omega) (by omega),
            ws_once false af hlen (by omega) (by omega)]
          have e4 : s.len - 1 + (s.len - i) - s.len = s.len - i - 1 := by
            omega
          have e5 : d + (s.len - i) - s.len = d - i := by omega
          rw [e4, e5]
          have hm : merge_adjacent (flatten_join
              [Position.Join
                  [.Span (c + (s.len - i), bf) (s.len - 1, false),
                    .Span (0, false) (s.len - i - 1, false)],
                .Join [.Span (s.len - i, false) (s.len - 1, false),
                  .Span (0, false) (d - i, af)]]) =
              [.Span (c + (s.len - i), bf) (s.len - 1, false),
                .Span (0, false) (s.len - 1, false),
                .Span (0, false) (d - i, af)] := by
            rw [fl_join, fl_span, fl_span, fl_join, fl_span, fl_span, fl_nil]
            simp only [List.cons_append, List.nil_append, List.append_nil]
            rw [ma_sp_sp_push bf false _ (by omega)]
            rw [ma_sp_sp_merge false false _ (by omega)]
            rw [ma_sp_sp_push false af _ (by omega), ma_one]
          exact simplify_join_three hm
        · rw [relocate_circular_eq s htop _ (-(s.len - i))]
          simp only [hsh2, mapVal, mapValList]
          rw [mapVal_add_collapse2, mapVal_add_collapse2,
            mapVal_add_collapse2]
          have e1 : c + (s.len - i) + (s.len - (s.len - i)) = c + s.len := by
            omega
          have e2 : s.len - 1 + (s.len - (s.len - i)) = s.len - 1 + i := by
            omega
          have e3 : (0 : Int) + (s.len - (s.len - i)) = i := by omega
          have e4 : d - i + (s.len - (s.len - i)) = d := by omega
          rw [e1, e2, e3, e4, Seq.wrap_position, wrapAll]
          simp only [wrapAllList]
          rw [wrapAll_collapse_high2 bf hlen hc0 (by omega) (by omega)
            (by omega)]
          rw [wrapAll_collapse_split2 false false hlen (by omega) (by omega)
            (by omega)]
          rw [wrapAll_collapse_low2 af (by omega) (by omega)]
          have e5 : s.len - 1 + i - s.len = i - 1 := by omega
          rw [e5]
          have hm : merge_adjacent (flatten_join
              [collapse_span (.Span (c, bf) (i - 1, false)),
                .Join [.Span (i, false) (s.len - 1, false),
                  .Span (0, false) (i - 1, false)],
                collapse_span (.Span (i, false) (d, af))]) =
              [.Span (c, bf) (s.len - 1, false),
                .Span (0, false) (d, af)] := by
            rw [fl_cs, fl_join, fl_span, fl_span, fl_nil, fl_cs, fl_nil]
            simp only [List.cons_append, List.nil_append, List.append_nil]
            rw [ma_cs_sp_merge bf false _ (by omega)]
            rw [ma_sp_sp_push bf false _ (by omega)]
            rw [ma_sp_cs_merge false af _ (by omega), ma_one]
          rw [simplify_join_two hm,
            collapse_keep (fun h3 => absurd h3.2.2 (by omega)),
            collapse_keep (fun h3 => absurd h3.2.2 (by omega))]
      · -- head splits, tail stays: middle pieces fuse back to two.
        refine ⟨.Join
          [collapse_span (.Span (c + (s.len - i), bf) (s.len - 1, false)),
            collapse_span (.Span (0, false) (d + (s.len - i), af))], ?_, ?_⟩
        · rw [relocate_circular_eq s htop _ (-i)]
          simp only [hsh1, mapVal, mapValList]
          rw [Seq.wrap_position, wrapAll]
          simp only [wrapAllList]
          simp only [wrapAll]
          rw [r2_noop (by omega), r2_noop (by omega)]
          have e3 : (0 : Int) + (s.len - i) = s.len - i := by omega
          rw [e3]
          show simplify (.Join
            [wrapSpan s.len (c + (s.len - i)) bf
              (s.len - 1 + (s.len - i)) false,
              wrapSpan s.len (s.len - i) false (d + (s.len - i)) af]) = _
          rw [ws_once bf false hlen (by omega) (by omega),
            ws_noop false af (by omega)]
          have e4 : s.len - 1 + (s.len - i) - s.len = s.len - i - 1 := by
            omega
          rw [e4]
          have hm : merge_adjacent (flatten_join
              [Position.Join
                  [.Span (c + (s.len - i), bf) (s.len - 1, false),
                    .Span (0, false) (s.len - i - 1, false)],
                .Span (s.len - i, false) (d + (s.len - i), af)]) =
              [.Span (c + (s.len - i), bf) (s.len - 1, false),
                .Span (0, false) (d + (s.len - i), af)] := by
            rw [fl_join, fl_span, fl_span, fl_span, fl_nil]
            simp only [List.cons_append, List.nil_append, List.append_nil]
            rw [ma_sp_sp_push bf false _ (by omega)]
            rw [ma_sp_sp_merge false af _ (by omega), ma_one]
          exact simplify_join_two hm
        · rw [relocate_circular_eq s htop _ (-(s.len - i))]
          simp only [hsh2, mapVal, mapValList]
          rw [mapVal_add_collapse2, mapVal_add_collapse2]
          have e1 : c + (s.len - i) + (s.len - (s.len - i)) = c + s.len := by
            omega
          have e2 : s.len - 1 + (s.len - (s.len - i)) = s.len - 1 + i := by
            omega
          have e3 : (0 : Int) + (s.len - (s.len - i)) = i := by omega
          have e4 : d + (s.len - i) + (s.len - (s.len - i)) = d + s.len := by
            omega
          rw [e1, e2, e3, e4, Seq.wrap_position, wrapAll]
          simp only [wrapAllList]
          rw [wrapAll_collapse_high2 bf hlen hc0 (by omega) (by omega)
            (by omega)]
          rw [wrapAll_collapse_split2 false af hlen (by omega) (by omega)
            (by omega)]
          have e5 : s.len - 1 + i - s.len = i - 1 := by omega
          have e6 : d + s.len - s.len = d := by omega
          rw [e5, e6]
          have hm : merge_adjacent (flatten_join
              [collapse_span (.Span (c, bf) (i - 1, false)),
                .Join [.Span (i, false) (s.len - 1, false),
                  .Span (0, false) (d, af)]]) =
              [.Span (c, bf) (s.len - 1, false),
                .Span (0, false) (d, af)] := by
            rw [fl_cs, fl_join, fl_span, fl_span, fl_nil]
            simp only [List.cons_append, List.nil_append, List.append_nil]
            rw [ma_cs_sp_merge bf false _ (by omega)]
            rw [ma_sp_sp_push bf af _ (by omega), ma_one]
          rw [simplify_join_two hm,
            collapse_keep (fun h3 => absurd h3.2.2 (by omega)),
            collapse_keep (fun h3 => absurd h3.2.2 (by omega))]
  | compl q hq ihq =>
    obtain ⟨r, h1, h2⟩ := ihq
    refine ⟨.Complement r, ?_, ?_⟩
    · rw [relocate_circular_eq s htop _ (-i), Seq.wrap_position]
      simp only [mapVal]
      rw [wrapAll]
      rw [relocate_circular_eq s htop _ (-i), Seq.wrap_position] at h1
      exact simplify_complement_ok h1
    · rw [relocate_circular_eq s htop _ (-(s.len - i)), Seq.wrap_position]
      simp only [mapVal]
      rw [wrapAll]
      rw [relocate_circular_eq s htop _ (-(s.len - i)),
        Seq.wrap_position] at h2
      exact simplify_complement_ok h2

/-- C4 (amended).  On a circular sequence whose features all sit on
`RotSafe` positions — a `Single` inside `[0, len)`, a span over
`0 ≤ a < b < len` with arbitrary fuzzy flags, a canonical origin-crossing
two-piece `Join`, or a `Complement` of such a position — rotating the
origin to `i` (with `0 < i < len`) and then to `len - i` restores the
feature list exactly.  The unrestricted claim of the spec is false:
`simplify` inside `wrap_position` rewrites a degenerate span feature to a
`Single` during the first rotation (see `C4_counterexample`), and `Between`
coordinates, which the wrap traversal never reduces, grow by `len` over the
round trip, so such features must be excluded. -/
theorem C4_set_origin_inverse (s : Seq) (i : Int)
    (htop : s.is_circular = true) (hi0 : 0 < i) (hil : i < s.len)
    (hf : ∀ f ∈ s.features, RotSafe s.len f.pos) :
    ((s.set_origin i).set_origin (s.len - i)).features = s.features := by
  rw [set_origin_set_origin_features]
  have key : ∀ L : List Feature, (∀ f ∈ L, RotSafe s.len f.pos) →
      (L.filterMap (fun f => (s.relocate_feature f (-i)).toOption)).filterMap
        (fun f => (s.relocate_feature f (-(s.len - i))).toOption) = L := by
    intro L
    induction L with
    | nil => intro _; rfl
    | cons f fs ih =>
      intro hL
      obtain ⟨r, h1, h2⟩ := rotsafe_roundtrip s htop i hi0 hil f.pos
        (hL f (List.mem_cons_self f fs))
      have hf1 : (s.relocate_feature f (-i)).toOption =
          some { f with pos := r } := by
        rw [Seq.relocate_feature, h1]
        rfl
      have hf2 : (s.relocate_feature { f with pos := r }
          (-(s.len - i))).toOption = some f := by
        rw [Seq.relocate_feature,
          show ({ f with pos := r } : Feature).pos = r from rfl, h2]
        rfl
      simp only [List.filterMap_cons, hf1, hf2]
      exact congrArg (List.cons _)
        (ih (fun g hg => hL g (List.mem_cons_of_mem _ hg)))
  exact key s.features hf

/-- Witness for C4: rotating the origin of `seqRot` — the circular
length-10 sequence with the four feature shapes of the repository
`set_origin` test (a proper span, a full-length span, an origin-crossing
`Join` and a `Single`) — to 3 and back restores the feature list. -/
theorem C4_set_origin_inverse_witness :
    ((seqRot.set_origin 3).set_origin (seqRot.len - 3)).features =
      seqRot.features := by
  apply C4_set_origin_inverse seqRot 3 rfl (by decide) (by decide)
  intro f hfm
  cases hfm with
  | head =>
    exact RotSafe.span 2 6 false false (by decide) (by decide) (by decide)
  | tail _ h =>
    cases h with
    | head =>
      exact RotSafe.span 0 9 false false (by decide) (by decide) (by decide)
    | tail _ h =>
      cases h with
      | head =>
        exact RotSafe.cross 7 3 false false (by decide) (by decide)
          (by decide) (by decide)
      | tail _ h =>
        cases h with
        | head => exact RotSafe.single 0 (by decide) (by decide)
        | tail _ h => cases h

end GB
